import Mathlib

/-!
SCPI command matcher: a shallow embedding of `SCPI.cpp`.

The development models the class `Node` of `SCPI.cpp` and its three
operations `match`, `matchChildren` and `parse`.

Modelling conventions.

* A `std::string_view` is a `List Char`.  `remove_prefix n` is `List.drop n`,
  `substr(pos, n)` is `(List.drop pos _).take n`, `substr(pos)` is `List.drop pos`.
* `std::string_view::find` returns `npos` when the character is absent; the
  model returns `none` there and `clampIdx` is `std::min(length, idx)`
  (a view is always shorter than `npos`).
* `std::isupper`, `std::islower` and `std::tolower` are those of the "C" locale.
* A handler is a `std::function<void(bool, std::string_view)>`; the model keeps a
  label `H` for it and every operation returns, next to its value, the list of
  handler invocations it made, in the order they were made.
* `*matchString.rbegin() == '?'` is evaluated by the source also when the
  comparison unit is empty; the read then lands on the character in front of the
  view (the stripped `':'` whenever `match` removed one).  The model takes the
  test to be false for an empty unit, see `endsWithQuestion`.  A node the
  constructor accepts has non-empty keyword forms and rejects an empty unit
  whatever that character is.
  The function `unitsTested` lists the units on which a call evaluates the test.
* `parse` is a loop; `Node.parseLoop` runs it with a bound on the number of
  iterations and `Node.parse` gives it the length of the input, which is shown
  to be enough (`parseLoop_eq`).
-/

set_option linter.dupNamespace false

namespace SCPI

/-! ## Characters and string views -/

/-- The function `std::isupper` in the "C" locale: the letters `A` to `Z`. -/
def isupper (c : Char) : Bool := decide (65 ≤ c.toNat ∧ c.toNat ≤ 90)

/-- The function `std::islower` in the "C" locale: the letters `a` to `z`. -/
def islower (c : Char) : Bool := decide (97 ≤ c.toNat ∧ c.toNat ≤ 122)

/-- The function `std::tolower` in the "C" locale. -/
def tolower (c : Char) : Char := if isupper c then Char.ofNat (c.toNat + 32) else c

/-- The method `std::string_view::find(char)`; `none` stands for `npos`. -/
def find : List Char → Char → Option Nat
  | [], _ => none
  | x :: xs, c => if x = c then some 0 else (find xs c).map (· + 1)

/-- The expression `std::min(input.length(), idx)` for an index returned by `find`. -/
def clampIdx (len : Nat) : Option Nat → Nat
  | none => len
  | some i => min len i

/-- The distance from `begin()` to the iterator returned by `std::find_if`
(the length of the view when no element satisfies the predicate). -/
def find_if (p : Char → Bool) : List Char → Nat
  | [] => 0
  | c :: cs => if p c then 0 else find_if p cs + 1

/-- The lambda `caseInsensitiveCompare` of `Node::match`. -/
def caseInsensitiveCompare (l r : Char) : Bool := tolower l == tolower r

/-- The four-iterator `std::equal` with a binary predicate. -/
def equal (pred : Char → Char → Bool) : List Char → List Char → Bool
  | [], [] => true
  | a :: as, b :: bs => pred a b && equal pred as bs
  | _, _ => false

/-- The test `*matchString.rbegin() == '?'`.  On an empty unit the source reads the
character in front of the view; the model answers `false` there. -/
def endsWithQuestion (matchString : List Char) : Bool :=
  matchString.getLast? == some '?'

/-! ## The data model -/

/-- The class `Node`: the members `_keyword`, `_keywordShort`, `_optional`,
`_children`, `_handler`.  The constructor `raw` only stores the members; the
constructor of the source is `Node.Node` below. -/
inductive Node (H : Type) where
  | raw (keyword keywordShort : List Char) (optional : Bool)
        (children : List (Node H)) (handler : Option H)

/-- The member `_keyword`. -/
def Node.keyword {H : Type} : Node H → List Char
  | .raw k _ _ _ _ => k

/-- The member `_keywordShort`. -/
def Node.keywordShort {H : Type} : Node H → List Char
  | .raw _ s _ _ _ => s

/-- The member `_optional`. -/
def Node.optional {H : Type} : Node H → Bool
  | .raw _ _ o _ _ => o

/-- The member `_children`. -/
def Node.children {H : Type} : Node H → List (Node H)
  | .raw _ _ _ c _ => c

/-- The member `_handler`. -/
def Node.handler {H : Type} : Node H → Option H
  | .raw _ _ _ _ h => h

/-- The struct `Node::MatchResult`. -/
structure MatchResult (H : Type) where
  leafNode : Node H
  isQuery : Bool
  parameters : List Char

/-- The type `Node::Result`. -/
abbrev Result (H : Type) := Option (MatchResult H)

/-- One invocation `_handler(isQuery, parameters)`. -/
structure Call (H : Type) where
  handler : H
  isQuery : Bool
  parameters : List Char
deriving DecidableEq, Repr

/-- The statement `if (_handler) { _handler(isQuery, parameters); }`. -/
def invoke {H : Type} (handler : Option H) (isQuery : Bool) (parameters : List Char) :
    List (Call H) :=
  match handler with
  | some h => [⟨h, isQuery, parameters⟩]
  | none => []

/-! ## Matching -/

mutual
/-- The method `Node::match`, returning its result and the handler invocations made. -/
def Node.match {H : Type} : Node H → List Char → Result H × List (Call H)
  | .raw keyword keywordShort optional children handler, input0 =>
    if input0.isEmpty then (none, [])
    else
      let input := if input0.head? = some ':' then input0.drop 1 else input0
      let colonIdx := clampIdx input.length (find input ':')
      let spaceIdx := clampIdx input.length (find input ' ')
      let substring := input.take (min colonIdx spaceIdx)
      let isQuery := endsWithQuestion substring
      let matchString := if isQuery then substring.dropLast else substring
      if equal caseInsensitiveCompare matchString keywordShort
          || equal caseInsensitiveCompare matchString keyword then
        let subInput := input.drop substring.length
        if !subInput.isEmpty then
          if subInput.head? = some ':' then
            matchList children subInput
          else
            let parameters := subInput.drop 1
            (some ⟨.raw keyword keywordShort optional children handler, isQuery, parameters⟩,
              invoke handler isQuery parameters)
        else
          (some ⟨.raw keyword keywordShort optional children handler, isQuery, []⟩,
            invoke handler isQuery [])
      else if optional then
        matchList children input
      else
        (none, [])
/-- The loop of `Node::matchChildren` over the children still to be tried. -/
def matchList {H : Type} : List (Node H) → List Char → Result H × List (Call H)
  | [], _ => (none, [])
  | child :: rest, input =>
    match child.match input with
    | (some result, calls) => (some result, calls)
    | (none, calls) =>
      let later := matchList rest input
      (later.1, calls ++ later.2)
end

/-- The method `Node::matchChildren`. -/
def Node.matchChildren {H : Type} (n : Node H) (input : List Char) :
    Result H × List (Call H) :=
  matchList n.children input

/-- The loop of `Node::parse`, run for at most `fuel` iterations; `none` when the
input is not used up by then. -/
def Node.parseLoop {H : Type} (n : Node H) : Nat → List Char → Option (List (Call H))
  | 0, input => if input.length > 0 then none else some []
  | fuel + 1, input =>
    if input.length > 0 then
      let input1 := if input.head? = some ';' then input.drop 1 else input
      let semicolonIdx := clampIdx input1.length (find input1 ';')
      let calls := (n.match (input1.take semicolonIdx)).2
      (n.parseLoop fuel (input1.drop semicolonIdx)).map (calls ++ ·)
    else some []

/-- The method `Node::parse`: the handler invocations made on `input`. -/
def Node.parse {H : Type} (n : Node H) (input : List Char) : Option (List (Call H)) :=
  n.parseLoop input.length input

/-- The constructor `Node::Node`; `none` when one of its two assertions fails. -/
def Node.Node {H : Type} (keyword : List Char) (optional : Bool)
    (children : List (SCPI.Node H)) (handler : Option H) : Option (SCPI.Node H) :=
  match keyword with
  | [] => none
  | c :: _ =>
    if isupper c then
      let itEndShort := find_if islower keyword
      some (.raw keyword (keyword.take itEndShort) optional children handler)
    else none

/-! ## Auxiliary definitions used to state the properties -/

/-- One leading `':'` removed, as `match` does before it looks for the unit. -/
def stripColon (input : List Char) : List Char :=
  if input.head? = some ':' then input.drop 1 else input

/-- The characters that end a comparison unit. -/
def isSep (c : Char) : Bool := c == ':' || c == ' '

/-- The comparison unit `substring` of `match`: the text before the first `':'` or `' '`. -/
def firstUnit (input : List Char) : List Char := input.takeWhile (fun c => !isSep c)

/-- The text `subInput` of `match`: the input from the first `':'` or `' '` on. -/
def afterUnit (input : List Char) : List Char := input.dropWhile (fun c => !isSep c)

/-- The text `matchString` of `match`: the comparison unit without its trailing `'?'`. -/
def dropQuestion (unit : List Char) : List Char :=
  if endsWithQuestion unit then unit.dropLast else unit

/-- The identity comparison of `match` applied to a comparison unit: a trailing `'?'`
is dropped and the rest is compared with the short and the full form. -/
def accepts {H : Type} (n : Node H) (unit : List Char) : Bool :=
  equal caseInsensitiveCompare (dropQuestion unit) n.keywordShort
    || equal caseInsensitiveCompare (dropQuestion unit) n.keyword

/-- The invocations a call that returned `r` made, when only the leaf's handler ran. -/
def callsOf {H : Type} (r : Result H) : List (Call H) :=
  match r with
  | some m => invoke m.leafNode.handler m.isQuery m.parameters
  | none => []

/-- The invocations made by `match` on each piece of the input split on `';'`. -/
def pieceCalls {H : Type} (n : Node H) (input : List Char) : List (Call H) :=
  (input.splitOn ';').flatMap (fun piece => (n.match piece).2)

/-- The maximal leading run of uppercase letters of a keyword. -/
def upperRun (keyword : List Char) : List Char := keyword.takeWhile isupper

/-- The text before the first lowercase letter of a keyword. -/
def beforeLower (keyword : List Char) : List Char := keyword.takeWhile (fun c => !islower c)

/-- Equality of two texts up to letter case. -/
def sameUpToCase (a b : List Char) : Prop := a.map tolower = b.map tolower

instance (a b : List Char) : Decidable (sameUpToCase a b) :=
  inferInstanceAs (Decidable (a.map tolower = b.map tolower))

/-- The part of the input after its first space; empty when there is no space. -/
def afterFirstSpace (input : List Char) : List Char :=
  (input.dropWhile (fun c => c != ' ')).drop 1

/-- The path of the input: the text before its first space. -/
def pathText (input : List Char) : List Char := input.takeWhile (fun c => c != ' ')

/-- The final path unit: the part of the path after its last `':'`. -/
def finalUnit (input : List Char) : List Char :=
  ((pathText input).reverse.takeWhile (fun c => c != ':')).reverse

/-! ## The trees of the test driver -/

/-- Labels for the two handler functions of the driver. -/
inductive Handler where
  | handleVoltage
  | handleCurrent
deriving DecidableEq, Repr

/-- The node `Node("CURrent", false, {}, &handleCurrent)`. -/
def currentNode : Node Handler :=
  .raw "CURrent".toList "CUR".toList false [] (some .handleCurrent)

/-- The node `Node("VOLTage", false, {}, &handleVoltage)`. -/
def voltageNode : Node Handler :=
  .raw "VOLTage".toList "VOLT".toList false [] (some .handleVoltage)

/-- The node `Node("CURrent", false, {})` of `test`, without a handler. -/
def currentNodeBare : Node Handler :=
  .raw "CURrent".toList "CUR".toList false [] none

/-- The tree `nodeMatcher` of `testParsing`. -/
def testParsingTree : Node Handler :=
  .raw "SENSor".toList "SENS".toList false
    [.raw "POWer".toList "POW".toList true [currentNode, voltageNode] none] none

/-- The tree `nodeMatcher` of `test`. -/
def testTree : Node Handler :=
  .raw "SENSor".toList "SENS".toList false
    [.raw "POWer".toList "POW".toList true [currentNodeBare, voltageNode] none] none

/-- The tree `POWer(optional) -> [VOLTage]`. -/
def powerTree : Node Handler :=
  .raw "POWer".toList "POW".toList true [voltageNode] none

/-- A node whose keyword ends in `'?'`. -/
def queryKeywordNode : Node Handler :=
  .raw "AB?".toList "AB?".toList false [] none

/-- A node whose keyword contains a `':'`. -/
def pathKeywordNode : Node Handler :=
  .raw "MEAS:volt".toList "MEAS:".toList false [] none

/-- The trees above as the constructor `Node::Node` builds them, bottom-up. -/
def builtTrees : Option (Node Handler × Node Handler × Node Handler) := do
  let cur ← Node.Node "CURrent".toList false [] (some .handleCurrent)
  let curBare ← Node.Node "CURrent".toList false [] none
  let volt ← Node.Node "VOLTage".toList false [] (some .handleVoltage)
  let pow ← Node.Node "POWer".toList true [cur, volt] none
  let powBare ← Node.Node "POWer".toList true [curBare, volt] none
  let powVolt ← Node.Node "POWer".toList true [volt] none
  let sens ← Node.Node "SENSor".toList false [pow] none
  let sensBare ← Node.Node "SENSor".toList false [powBare] none
  pure (sens, sensBare, powVolt)

/-! ## Definitions for the later properties -/

mutual
/-- The comparison units on which a call of `match` evaluates the test
`*matchString.rbegin() == '?'`, in the order of the calls: the body of `Node::match`
with the value of `substring` recorded at that statement. -/
def unitsTested {H : Type} : Node H → List Char → List (List Char)
  | .raw keyword keywordShort optional children _, input0 =>
    if input0.isEmpty then []
    else
      let input := if input0.head? = some ':' then input0.drop 1 else input0
      let colonIdx := clampIdx input.length (find input ':')
      let spaceIdx := clampIdx input.length (find input ' ')
      let substring := input.take (min colonIdx spaceIdx)
      let isQuery := endsWithQuestion substring
      let matchString := if isQuery then substring.dropLast else substring
      substring ::
        (if equal caseInsensitiveCompare matchString keywordShort
            || equal caseInsensitiveCompare matchString keyword then
          let subInput := input.drop substring.length
          if !subInput.isEmpty then
            if subInput.head? = some ':' then unitsTestedList children subInput else []
          else []
        else if optional then unitsTestedList children input
        else [])
/-- The units tested by the loop of `Node::matchChildren`, which stops at the first child
that returns a result. -/
def unitsTestedList {H : Type} : List (Node H) → List Char → List (List Char)
  | [], _ => []
  | child :: rest, input =>
    unitsTested child input ++
      (match (child.match input).1 with
        | some _ => []
        | none => unitsTestedList rest input)
end

/-- The segment handed to `match` by one iteration of the loop of `Node::parse`. -/
def parseSegment (input : List Char) : List Char :=
  let input1 := if input.head? = some ';' then input.drop 1 else input
  let semicolonIdx := clampIdx input1.length (find input1 ';')
  input1.take semicolonIdx

/-- The input left after one iteration of the loop of `Node::parse`. -/
def parseRest (input : List Char) : List Char :=
  let input1 := if input.head? = some ';' then input.drop 1 else input
  let semicolonIdx := clampIdx input1.length (find input1 ';')
  input1.drop semicolonIdx

/-- The unit names the node: without its trailing `'?'` it equals the short or the full
form of the node up to letter case. -/
def names {H : Type} (n : Node H) (unit : List Char) : Prop :=
  sameUpToCase (dropQuestion unit) n.keywordShort ∨ sameUpToCase (dropQuestion unit) n.keyword

instance {H : Type} (n : Node H) (unit : List Char) : Decidable (names n unit) :=
  inferInstanceAs (Decidable (_ ∨ _))

/-- The node `L` is `root` or lies below it in the tree. -/
inductive InSubtree {H : Type} : Node H → Node H → Prop
  | self (n : Node H) : InSubtree n n
  | child (n c L : Node H) : c ∈ n.children → InSubtree c L → InSubtree n L

/-- The units, in order, name a subsequence of the nodes on a tree path from `n` to `L`
whose last element is `L`, and every node of the path that is passed over is optional. -/
inductive Follows {H : Type} : Node H → List (List Char) → Node H → Prop
  | leaf (n : Node H) (u : List Char) : names n u → Follows n [u] n
  | descend (n c L : Node H) (u : List Char) (us : List (List Char)) :
      names n u → c ∈ n.children → Follows c us L → Follows n (u :: us) L
  | skip (n c L : Node H) (us : List (List Char)) :
      n.optional = true → c ∈ n.children → Follows c us L → Follows n us L

/-- The colon-separated units of the path of the input, one leading `':'` dropped. -/
def pathUnits (input : List Char) : List (List Char) :=
  (stripColon (pathText input)).splitOn ':'

/-- Whether the text contains two adjacent colons. -/
def hasDoubleColon : List Char → Bool
  | [] => false
  | x :: rest => (x == ':' && rest.head? == some ':') || hasDoubleColon rest

/-- Two results agree on the leaf and the query flag, or are both "no match". -/
def sameLeaf {H : Type} (r1 r2 : Result H) : Prop :=
  match r1, r2 with
  | none, none => True
  | some a, some b => a.leafNode = b.leafNode ∧ a.isQuery = b.isQuery
  | _, _ => False

/-- A node `SENSe -> [CURrent]`, whose short form is `SENS`. -/
def senseNode : Node Handler :=
  .raw "SENSe".toList "SENS".toList false [currentNode] none

/-- A node `SENSor -> [VOLTage]`, whose short form is `SENS` as well. -/
def sensorNode : Node Handler :=
  .raw "SENSor".toList "SENS".toList false [voltageNode] none

/-- The tree `SYSTem -> [SENSe -> [CURrent], SENSor -> [VOLTage]]`. -/
def siblingTree : Node Handler :=
  .raw "SYSTem".toList "SYST".toList false [senseNode, sensorNode] none

/-! ## Basic facts about the embedding -/

theorem builtTrees_eq : builtTrees = some (testParsingTree, testTree, powerTree) := rfl

variable {H : Type}

theorem clampIdx_succ (n : Nat) (o : Option Nat) :
    clampIdx (n + 1) (o.map (· + 1)) = clampIdx n o + 1 := by
  cases o with
  | none => rfl
  | some i => simp only [clampIdx, Option.map_some']; omega

theorem unit_length (l : List Char) :
    min (clampIdx l.length (find l ':')) (clampIdx l.length (find l ' '))
      = (firstUnit l).length := by
  induction l with
  | nil => rfl
  | cons x xs ih =>
    by_cases h1 : x = ':'
    · subst h1; simp [find, clampIdx, firstUnit, isSep]
    · by_cases h2 : x = ' '
      · subst h2; simp [find, clampIdx, firstUnit, isSep]
      · have hs : isSep x = false := by simp [isSep, h1, h2]
        have hu : firstUnit (x :: xs) = x :: firstUnit xs := by
          simp [firstUnit, hs]
        rw [hu]
        simp only [find, h1, h2, if_false, List.length_cons, clampIdx_succ]
        rw [← ih]; omega

theorem unit_append (l : List Char) : firstUnit l ++ afterUnit l = l :=
  List.takeWhile_append_dropWhile _ l

theorem take_unit (l : List Char) :
    l.take (min (clampIdx l.length (find l ':')) (clampIdx l.length (find l ' ')))
      = firstUnit l := by
  rw [unit_length]
  have h : (firstUnit l ++ afterUnit l).take (firstUnit l).length = firstUnit l := by simp
  rwa [unit_append] at h

theorem drop_unit (l : List Char) : l.drop (firstUnit l).length = afterUnit l := by
  have h : (firstUnit l ++ afterUnit l).drop (firstUnit l).length = afterUnit l := by simp
  rwa [unit_append] at h

/-- The body of `match` written with the comparison unit and the text after it. -/
theorem match_eq (n : Node H) (input0 : List Char) :
    n.match input0 =
      if input0 = [] then (none, [])
      else if accepts n (firstUnit (stripColon input0)) then
        match afterUnit (stripColon input0) with
        | [] => (some ⟨n, endsWithQuestion (firstUnit (stripColon input0)), []⟩,
                  invoke n.handler (endsWithQuestion (firstUnit (stripColon input0))) [])
        | c :: rest =>
          if c = ':' then matchList n.children (c :: rest)
          else (some ⟨n, endsWithQuestion (firstUnit (stripColon input0)), rest⟩,
                  invoke n.handler (endsWithQuestion (firstUnit (stripColon input0))) rest)
      else if n.optional then matchList n.children (stripColon input0)
      else (none, []) := by
  cases n with
  | raw kw ks opt ch h =>
    rw [Node.match]
    by_cases h0 : input0 = []
    · simp [h0]
    · have hne : input0.isEmpty = false := by
        cases input0 with
        | nil => exact absurd rfl h0
        | cons _ _ => rfl
      simp only [hne, h0, if_false, Bool.false_eq_true]
      simp only [← stripColon.eq_1, take_unit, drop_unit]
      simp only [accepts, dropQuestion, Node.keywordShort, Node.keyword, Node.optional, Node.children,
        Node.handler]
      cases hA : afterUnit (stripColon input0) with
      | nil => simp
      | cons c rest => simp

theorem match_nil (n : Node H) : n.match [] = (none, []) := by
  rw [match_eq]; simp

theorem matchList_cons (c : Node H) (cs : List (Node H)) (input : List Char) :
    matchList (c :: cs) input =
      match c.match input with
      | (some result, calls) => (some result, calls)
      | (none, calls) => ((matchList cs input).1, calls ++ (matchList cs input).2) := by
  rw [matchList]

mutual
/-- Induction over a tree: a property holds of every node when it holds of a node
as soon as it holds of all its children. -/
theorem node_induction {P : Node H → Prop}
    (step : ∀ kw ks opt ch h, (∀ c ∈ ch, P c) → P (.raw kw ks opt ch h)) :
    ∀ n : Node H, P n
  | .raw kw ks opt ch h => step kw ks opt ch h (nodes_induction step ch)
theorem nodes_induction {P : Node H → Prop}
    (step : ∀ kw ks opt ch h, (∀ c ∈ ch, P c) → P (.raw kw ks opt ch h)) :
    ∀ l : List (Node H), ∀ c ∈ l, P c
  | [], _, hc => absurd hc (List.not_mem_nil _)
  | d :: ds, c, hc => by
    rcases List.mem_cons.1 hc with rfl | hc
    · exact node_induction step _
    · exact nodes_induction step ds c hc
end

theorem matchList_calls (ch : List (Node H)) (input : List Char)
    (ih : ∀ c ∈ ch, (c.match input).2 = callsOf (c.match input).1) :
    (matchList ch input).2 = callsOf (matchList ch input).1 := by
  induction ch with
  | nil => rfl
  | cons c cs ihl =>
    have hc := ih c (List.mem_cons_self _ _)
    have hcs := ihl (fun d hd => ih d (List.mem_cons_of_mem _ hd))
    rw [matchList_cons]
    rcases hm : c.match input with ⟨_ | r, calls⟩
    · rw [hm] at hc
      simp only [callsOf] at hc
      simp [hc, hcs]
    · rw [hm] at hc
      simpa using hc

/-- The invocations of a call of `match` are those of the returned leaf, if any. -/
theorem match_calls (n : Node H) (input : List Char) :
    (n.match input).2 = callsOf (n.match input).1 := by
  revert input
  refine node_induction (P := fun n => ∀ input, (n.match input).2 = callsOf (n.match input).1) ?_ n
  intro kw ks opt ch h ih input
  have hl : ∀ i, (matchList ch i).2 = callsOf (matchList ch i).1 :=
    fun i => matchList_calls ch i (fun c hc => ih c hc i)
  rw [match_eq]
  split
  · rfl
  · split
    · split
      · rfl
      · split
        · exact hl _
        · rfl
    · split
      · exact hl _
      · rfl

/-- A result of the loop over the children is the result of one of the children. -/
theorem matchList_some (ch : List (Node H)) (input : List Char) (r : MatchResult H)
    (h : (matchList ch input).1 = some r) : ∃ c ∈ ch, (c.match input).1 = some r := by
  induction ch with
  | nil => simp [matchList] at h
  | cons c cs ih =>
    rw [matchList_cons] at h
    rcases hm : c.match input with ⟨_ | r', calls⟩
    · rw [hm] at h
      obtain ⟨d, hd, hr⟩ := ih h
      exact ⟨d, List.mem_cons_of_mem _ hd, hr⟩
    · rw [hm] at h
      exact ⟨c, List.mem_cons_self _ _, by rw [hm]; exact h⟩

/-- A property of the results of `match` that survives the removal of a leading `':'`
and the descent into the text after the unit holds of every result. -/
theorem match_result_induction (Q : List Char → MatchResult H → Prop)
    (hstrip : ∀ input r, Q (stripColon input) r → Q input r)
    (hdesc : ∀ input c rest r, afterUnit input = c :: rest → c = ':' →
      Q (c :: rest) r → Q input r)
    (hend : ∀ (n : Node H) input, afterUnit input = [] →
      Q input ⟨n, endsWithQuestion (firstUnit input), []⟩)
    (hparam : ∀ (n : Node H) input c rest, afterUnit input = c :: rest → c ≠ ':' →
      Q input ⟨n, endsWithQuestion (firstUnit input), rest⟩)
    (n : Node H) (input : List Char) (r : MatchResult H)
    (h : (n.match input).1 = some r) : Q input r := by
  revert input r
  refine node_induction
    (P := fun n => ∀ input r, (n.match input).1 = some r → Q input r) ?_ n
  intro kw ks opt ch hd ih input r h
  have hl : ∀ i r, (matchList ch i).1 = some r → Q i r := by
    intro i r hr
    obtain ⟨c, hc, hcr⟩ := matchList_some ch i r hr
    exact ih c hc i r hcr
  rw [match_eq] at h
  split at h
  · simp at h
  · apply hstrip
    split at h
    · split at h
      · rename_i hA
        simp only [Option.some.injEq] at h
        subst h
        exact hend _ _ hA
      · rename_i c rest hA
        split at h
        · rename_i hc
          exact hdesc _ c rest r hA hc (hl _ r h)
        · rename_i hc
          simp only [Option.some.injEq] at h
          subst h
          exact hparam _ _ c rest hA hc
    · split at h
      · exact hl _ r h
      · simp at h

/-! ### Parameters and the query flag -/

theorem afterUnit_head_sep (l : List Char) (c : Char) (rest : List Char)
    (h : afterUnit l = c :: rest) : isSep c = true := by
  have := List.head_dropWhile_not (fun c => !isSep c) l
  unfold afterUnit at h
  simp only [h] at this
  simpa using this

theorem afterUnit_head_space (l : List Char) (c : Char) (rest : List Char)
    (h : afterUnit l = c :: rest) (hc : c ≠ ':') : c = ' ' := by
  have := afterUnit_head_sep l c rest h
  simpa [isSep, hc] using this

theorem afterFirstSpace_afterUnit (l : List Char) :
    afterFirstSpace (afterUnit l) = afterFirstSpace l := by
  induction l with
  | nil => rfl
  | cons x xs ih =>
    by_cases hs : isSep x = true
    · simp [afterUnit, hs]
    · have hx : x ≠ ' ' := by
        intro hx; subst hx; exact hs rfl
      have h1 : afterUnit (x :: xs) = afterUnit xs := by simp [afterUnit, hs]
      have h2 : afterFirstSpace (x :: xs) = afterFirstSpace xs := by
        simp [afterFirstSpace, hx]
      rw [h1, h2, ih]

theorem afterFirstSpace_stripColon (l : List Char) :
    afterFirstSpace (stripColon l) = afterFirstSpace l := by
  unfold stripColon
  split
  · rename_i h
    cases l with
    | nil => rfl
    | cons x xs =>
      simp only [List.head?_cons, Option.some.injEq] at h
      subst h
      simp [afterFirstSpace]
  · rfl

/-- The parameters of a result are the text after the first space of the input. -/
theorem match_parameters (n : Node H) (input : List Char) (r : MatchResult H)
    (h : (n.match input).1 = some r) : r.parameters = afterFirstSpace input := by
  refine match_result_induction (fun input r => r.parameters = afterFirstSpace input)
    ?_ ?_ ?_ ?_ n input r h
  · intro input r hq
    rw [hq, afterFirstSpace_stripColon]
  · intro input c rest r hA _ hq
    rw [hq, ← hA, afterFirstSpace_afterUnit]
  · intro n input hA
    rw [← afterFirstSpace_afterUnit, hA]; rfl
  · intro n input c rest hA hc
    have hsp := afterUnit_head_space input c rest hA hc
    subst hsp
    rw [← afterFirstSpace_afterUnit, hA]; rfl

theorem pathText_unit (l : List Char) :
    pathText l = firstUnit l ++ pathText (afterUnit l) := by
  induction l with
  | nil => rfl
  | cons x xs ih =>
    by_cases hs : isSep x = true
    · simp [afterUnit, firstUnit, hs]
    · have hx : x ≠ ' ' := by
        intro hx; subst hx; exact hs rfl
      have h1 : afterUnit (x :: xs) = afterUnit xs := by simp [afterUnit, hs]
      have h2 : firstUnit (x :: xs) = x :: firstUnit xs := by simp [firstUnit, hs]
      have h3 : pathText (x :: xs) = x :: pathText xs := by simp [pathText, hx]
      rw [h1, h2, h3, ih]; rfl

theorem endsWithQuestion_colon_cons (p : List Char) :
    endsWithQuestion (':' :: p) = endsWithQuestion p := by
  cases p with
  | nil => decide
  | cons y ys => simp [endsWithQuestion, List.getLast?_cons_cons]

theorem endsWithQuestion_append_colon (u p : List Char) :
    endsWithQuestion (u ++ ':' :: p) = endsWithQuestion p := by
  rw [← endsWithQuestion_colon_cons p]
  simp [endsWithQuestion, List.getLast?_append]

theorem pathText_stripColon (l : List Char) :
    endsWithQuestion (pathText (stripColon l)) = endsWithQuestion (pathText l) := by
  unfold stripColon
  split
  · rename_i h
    cases l with
    | nil => rfl
    | cons x xs =>
      simp only [List.head?_cons, Option.some.injEq] at h
      subst h
      have : pathText (':' :: xs) = ':' :: pathText xs := by simp [pathText]
      rw [this, endsWithQuestion_colon_cons]; rfl
  · rfl

/-- The query flag of a result tells whether the path of the input ends in `'?'`. -/
theorem match_isQuery (n : Node H) (input : List Char) (r : MatchResult H)
    (h : (n.match input).1 = some r) : r.isQuery = endsWithQuestion (pathText input) := by
  refine match_result_induction (fun input r => r.isQuery = endsWithQuestion (pathText input))
    ?_ ?_ ?_ ?_ n input r h
  · intro input r hq
    rw [hq, pathText_stripColon]
  · intro input c rest r hA hc hq
    subst hc
    have hp : pathText (':' :: rest) = ':' :: pathText rest := by simp [pathText]
    rw [hq, pathText_unit input, hA, hp, endsWithQuestion_append_colon,
      endsWithQuestion_colon_cons]
  · intro n input hA
    rw [pathText_unit input, hA]
    simp [pathText]
  · intro n input c rest hA hc
    have hsp := afterUnit_head_space input c rest hA hc
    subst hsp
    rw [pathText_unit input, hA]
    simp [pathText]

theorem finalUnit_question (input : List Char) :
    ((finalUnit input).getLast? = some '?') ↔ endsWithQuestion (pathText input) = true := by
  unfold finalUnit endsWithQuestion
  rw [List.getLast?_reverse, List.getLast?_eq_head?_reverse]
  cases (pathText input).reverse with
  | nil => simp
  | cons c cs =>
    by_cases hc : c = ':'
    · subst hc; simp
    · simp [hc]

theorem afterFirstSpace_of_path (input : List Char) (h : pathText input = input) :
    afterFirstSpace input = [] := by
  have h2 := List.takeWhile_append_dropWhile (fun c => c != ' ') input
  unfold pathText at h
  rw [h] at h2
  have h3 : input.dropWhile (fun c => c != ' ') = [] := by
    simpa using h2
  simp [afterFirstSpace, h3]

/-! ### The loop of `parse` -/

theorem semicolon_length (l : List Char) :
    clampIdx l.length (find l ';') = (l.takeWhile (fun c => c != ';')).length := by
  induction l with
  | nil => rfl
  | cons x xs ih =>
    by_cases h1 : x = ';'
    · subst h1; simp [find, clampIdx]
    · simp only [find, h1, if_false, List.length_cons, clampIdx_succ, ih]
      simp [h1]

theorem take_semicolon (l : List Char) :
    l.take (clampIdx l.length (find l ';')) = l.takeWhile (fun c => c != ';') := by
  rw [semicolon_length]
  induction l with
  | nil => rfl
  | cons x xs ih => by_cases hx : x = ';' <;> simp [hx, ih]

theorem drop_semicolon (l : List Char) :
    l.drop (clampIdx l.length (find l ';')) = l.dropWhile (fun c => c != ';') := by
  rw [semicolon_length]
  induction l with
  | nil => rfl
  | cons x xs ih => by_cases hx : x = ';' <;> simp [hx, ih]

theorem splitOn_nil_semicolon : ([] : List Char).splitOn ';' = [[]] := rfl

theorem splitOn_cons_semicolon (xs : List Char) :
    (';' :: xs).splitOn ';' = [] :: xs.splitOn ';' := by
  simp [List.splitOn, List.splitOnP_cons]

theorem splitOn_ne_nil (l : List Char) : l.splitOn ';' ≠ [] := by
  simp [List.splitOn, List.splitOnP_ne_nil]

theorem splitOn_cons_other (x : Char) (xs : List Char) (hx : x ≠ ';') :
    (x :: xs).splitOn ';' = List.modifyHead (List.cons x) (xs.splitOn ';') := by
  simp [List.splitOn, List.splitOnP_cons, hx]

theorem pieceCalls_nil (n : Node H) : pieceCalls n [] = [] := by
  simp [pieceCalls, splitOn_nil_semicolon, match_nil]

theorem pieceCalls_semicolon (n : Node H) (xs : List Char) :
    pieceCalls n (';' :: xs) = pieceCalls n xs := by
  simp [pieceCalls, splitOn_cons_semicolon, match_nil]

/-- The pieces of an input: the text before its first `';'`, then the pieces of the
text after that `';'`. -/
theorem splitOn_semicolon_eq (l : List Char) :
    l.splitOn ';' = l.takeWhile (fun c => c != ';') ::
      (match l.dropWhile (fun c => c != ';') with
        | [] => []
        | _ :: r => r.splitOn ';') := by
  induction l with
  | nil => rfl
  | cons x xs ih =>
    by_cases hx : x = ';'
    · subst hx
      rw [splitOn_cons_semicolon]
      simp
    · rw [splitOn_cons_other x xs hx, ih]
      simp [hx]

/-- The invocations of the pieces, read off the first piece and the rest of the input. -/
theorem pieceCalls_step (n : Node H) (l : List Char) :
    pieceCalls n l = (n.match (l.takeWhile (fun c => c != ';'))).2
      ++ pieceCalls n (l.dropWhile (fun c => c != ';')) := by
  have hhead := List.head_dropWhile_not (fun c => c != ';') l
  conv_lhs => rw [pieceCalls, splitOn_semicolon_eq, List.flatMap_cons]
  congr 1
  cases hd : l.dropWhile (fun c => c != ';') with
  | nil => simp [pieceCalls_nil]
  | cons c r =>
    simp only [hd] at hhead
    have hc : c = ';' := by simpa using hhead
    subst hc
    rw [pieceCalls_semicolon]
    rfl

theorem parseLoop_eq (n : Node H) (fuel : Nat) :
    ∀ input : List Char, input.length ≤ fuel → n.parseLoop fuel input = some (pieceCalls n input) := by
  induction fuel with
  | zero =>
    intro input h
    have : input = [] := List.length_eq_zero.1 (Nat.le_zero.1 h)
    subst this
    simp [Node.parseLoop, pieceCalls_nil]
  | succ fuel ih =>
    intro input h
    cases input with
    | nil => simp [Node.parseLoop, pieceCalls_nil]
    | cons x xs =>
      rw [Node.parseLoop]
      simp only [List.length_cons, gt_iff_lt, Nat.zero_lt_succ, if_true, List.head?_cons,
        Option.some.injEq, take_semicolon, drop_semicolon]
      simp only [List.length_cons, Nat.add_le_add_iff_right] at h
      by_cases hx : x = ';'
      · subst hx
        simp only [if_true, List.drop_succ_cons, List.drop_zero]
        rw [ih _ (le_trans (List.dropWhile_sublist _).length_le h)]
        rw [pieceCalls_semicolon, pieceCalls_step n xs]
        rfl
      · simp only [hx, if_false]
        have hd : (x :: xs).dropWhile (fun c => c != ';') = xs.dropWhile (fun c => c != ';') := by
          simp [hx]
        rw [hd, ih _ (le_trans (List.dropWhile_sublist _).length_le h), ← hd]
        rw [pieceCalls_step n (x :: xs)]
        rfl

/-! ### Characters and the constructor -/

theorem isupper_not_islower (c : Char) (h : isupper c = true) : islower c = false := by
  simp only [isupper, islower, decide_eq_true_eq, decide_eq_false_iff_not] at *
  omega

theorem toNat_ofNat_lower (n : Nat) (h1 : 65 ≤ n) (h2 : n ≤ 90) :
    (Char.ofNat (n + 32)).toNat = n + 32 := by
  interval_cases n <;> rfl

theorem toNat_injective (a b : Char) (h : a.toNat = b.toNat) : a = b := by
  rw [← Char.ofNat_toNat a, ← Char.ofNat_toNat b, h]

theorem tolower_islower (c : Char) (h : isupper c = true) : islower (tolower c) = true := by
  have h' := h
  simp only [isupper, decide_eq_true_eq] at h'
  simp only [tolower, h, if_true, islower, decide_eq_true_eq, toNat_ofNat_lower _ h'.1 h'.2]
  omega

/-- A character that is not a letter is the lower-case form of itself only. -/
theorem tolower_eq_iff (a x : Char) (hx1 : isupper x = false) (hx2 : islower x = false) :
    tolower a = x ↔ a = x := by
  constructor
  · intro h
    by_cases ha : isupper a = true
    · have := tolower_islower a ha
      rw [h, hx2] at this
      exact absurd this (by decide)
    · simpa [tolower, ha] using h
  · rintro rfl
    simp [tolower, hx1]

theorem equal_iff (a b : List Char) :
    equal caseInsensitiveCompare a b = true ↔ sameUpToCase a b := by
  induction a generalizing b with
  | nil => cases b <;> simp [equal, sameUpToCase]
  | cons x xs ih =>
    cases b with
    | nil => simp [equal, sameUpToCase]
    | cons y ys =>
      have := ih ys
      simp only [sameUpToCase] at this ⊢
      simp [equal, caseInsensitiveCompare, this]

theorem sameUpToCase_mem (u v : List Char) (x : Char) (h : sameUpToCase u v)
    (hx1 : isupper x = false) (hx2 : islower x = false) : x ∈ u ↔ x ∈ v := by
  have key : ∀ w : List Char, x ∈ w.map tolower ↔ x ∈ w := by
    intro w
    simp [List.mem_map, tolower_eq_iff _ x hx1 hx2]
  rw [← key u, ← key v, h]

theorem sameUpToCase_getLast (u v : List Char) (x : Char) (h : sameUpToCase u v)
    (hx1 : isupper x = false) (hx2 : islower x = false) :
    u.getLast? = some x ↔ v.getLast? = some x := by
  have key : ∀ w : List Char, (w.map tolower).getLast? = some x ↔ w.getLast? = some x := by
    intro w
    rw [List.getLast?_map]
    cases w.getLast? with
    | none => simp
    | some y => simp [tolower_eq_iff _ x hx1 hx2]
  rw [← key u, ← key v, h]

theorem sameUpToCase_nil (u v : List Char) (h : sameUpToCase u v) : u = [] ↔ v = [] := by
  have := congrArg List.length h
  simp only [List.length_map] at this
  rw [← List.length_eq_zero, ← List.length_eq_zero (l := v), this]

/-- The position found by `find_if` cuts off the text before the first match. -/
theorem take_find_if (p : Char → Bool) (l : List Char) :
    l.take (find_if p l) = l.takeWhile (fun c => !p c) := by
  induction l with
  | nil => rfl
  | cons x xs ih =>
    by_cases hx : p x = true
    · simp [find_if, hx]
    · simp [find_if, hx, ih]

/-- What the constructor stores when it accepts a keyword. -/
theorem constructor_some (keyword : List Char) (optional : Bool) (children : List (Node H))
    (handler : Option H) (n : Node H)
    (h : Node.Node keyword optional children handler = some n) :
    (∃ c rest, keyword = c :: rest ∧ isupper c = true) ∧
      n = .raw keyword (beforeLower keyword) optional children handler := by
  cases keyword with
  | nil => simp [Node.Node] at h
  | cons c rest =>
    by_cases hc : isupper c = true
    · simp only [Node.Node, hc, if_true, Option.some.injEq] at h
      refine ⟨⟨c, rest, rfl, hc⟩, ?_⟩
      rw [← h, take_find_if]
      rfl
    · simp [Node.Node, hc] at h

theorem beforeLower_prefix_keyword (keyword : List Char) : beforeLower keyword <+: keyword :=
  List.takeWhile_prefix _

theorem beforeLower_ne_nil (c : Char) (rest : List Char) (hc : isupper c = true) :
    beforeLower (c :: rest) ≠ [] := by
  simp [beforeLower, isupper_not_islower c hc]

theorem beforeLower_letters (keyword : List Char)
    (h : ∀ c ∈ keyword, isupper c = true ∨ islower c = true) :
    beforeLower keyword = upperRun keyword := by
  induction keyword with
  | nil => rfl
  | cons x xs ih =>
    have ihx := ih (fun c hc => h c (List.mem_cons_of_mem _ hc))
    unfold beforeLower upperRun at *
    rcases h x (List.mem_cons_self _ _) with hx | hx
    · simp [hx, isupper_not_islower x hx, ihx]
    · have : isupper x = false := by
        cases hu : isupper x with
        | false => rfl
        | true => rw [isupper_not_islower x hu] at hx; exact absurd hx (by decide)
      simp [hx, this]

/-! ### Matching a keyword spelling -/

theorem firstUnit_of_no_sep (u : List Char) (h : ∀ c ∈ u, isSep c = false) :
    firstUnit u = u := by
  unfold firstUnit
  rw [List.takeWhile_eq_self_iff]
  intro c hc
  simp [h c hc]

theorem afterUnit_of_no_sep (u : List Char) (h : ∀ c ∈ u, isSep c = false) :
    afterUnit u = [] := by
  have h1 := unit_append u
  rw [firstUnit_of_no_sep u h] at h1
  simpa using h1

theorem stripColon_of_no_colon (u : List Char) (h : ':' ∉ u) : stripColon u = u := by
  cases u with
  | nil => rfl
  | cons x xs =>
    have hx : x ≠ ':' := fun hx => h (by simp [hx])
    simp [stripColon, hx]

/-- A text without `':'` and `' '` that does not end in `'?'` and is accepted by the
identity comparison is matched as a bare unit. -/
theorem match_bare_unit (n : Node H) (u : List Char) (hne : u ≠ [])
    (hcolon : ':' ∉ u) (hspace : ' ' ∉ u) (hq : u.getLast? ≠ some '?')
    (hacc : equal caseInsensitiveCompare u n.keywordShort = true
      ∨ equal caseInsensitiveCompare u n.keyword = true) :
    n.match u = (some ⟨n, false, []⟩, invoke n.handler false []) := by
  have hsep : ∀ c ∈ u, isSep c = false := by
    intro c hc
    have h1 : c ≠ ':' := fun h => hcolon (h ▸ hc)
    have h2 : c ≠ ' ' := fun h => hspace (h ▸ hc)
    simp [isSep, h1, h2]
  have hQ : endsWithQuestion u = false := by
    simp [endsWithQuestion, hq]
  have hA : accepts n u = true := by
    simp only [accepts, dropQuestion, hQ, Bool.false_eq_true, if_false, Bool.or_eq_true]
    exact hacc
  rw [match_eq]
  simp only [hne, if_false, stripColon_of_no_colon u hcolon, firstUnit_of_no_sep u hsep,
    afterUnit_of_no_sep u hsep, hA, if_true, hQ]

theorem matchList_nil_input (ch : List (Node H)) : matchList ch [] = (none, []) := by
  induction ch with
  | nil => rfl
  | cons c cs ih => rw [matchList_cons, match_nil, ih]; rfl

/-- A node with non-empty keyword forms does not match the input `":"`. -/
theorem match_colon_only (n : Node H) (h1 : n.keyword ≠ []) (h2 : n.keywordShort ≠ []) :
    n.match [':'] = (none, []) := by
  rw [match_eq]
  have hs : stripColon [':'] = [] := rfl
  have e1 : equal caseInsensitiveCompare [] n.keywordShort = false := by
    cases hk : n.keywordShort with
    | nil => exact absurd hk h2
    | cons _ _ => rfl
  have e2 : equal caseInsensitiveCompare [] n.keyword = false := by
    cases hk : n.keyword with
    | nil => exact absurd hk h1
    | cons _ _ => rfl
  have hA : accepts n [] = false := by
    simp [accepts, dropQuestion, endsWithQuestion, e1, e2]
  simp only [hs]
  simp [firstUnit, hA, matchList_nil_input]

/-- On an input that starts with one `':'` only, `match` works on the text after it. -/
theorem match_colon_cons (n : Node H) (s : List Char) (hs : s ≠ []) (hc : s.head? ≠ some ':') :
    n.match (':' :: s) = n.match s := by
  rw [match_eq, match_eq n s]
  have h1 : stripColon (':' :: s) = s := rfl
  have h2 : stripColon s = s := by simp [stripColon, hc]
  simp [h1, h2, hs]

theorem matchList_congr (ch : List (Node H)) (a b : List Char)
    (h : ∀ c ∈ ch, c.match a = c.match b) : matchList ch a = matchList ch b := by
  induction ch with
  | nil => rfl
  | cons c cs ih =>
    rw [matchList_cons, matchList_cons, h c (List.mem_cons_self _ _),
      ih (fun d hd => h d (List.mem_cons_of_mem _ hd))]

/-- The children of a node give the same answer on an input and on that input with a
leading `':'` removed, unless the input starts with two colons. -/
theorem matchList_stripColon (ch : List (Node H)) (input : List Char)
    (hch : ∀ c ∈ ch, c.keyword ≠ [] ∧ c.keywordShort ≠ [])
    (h2 : ∀ s, input ≠ ':' :: ':' :: s) :
    matchList ch (stripColon input) = matchList ch input := by
  cases input with
  | nil => rfl
  | cons x s =>
    by_cases hx : x = ':'
    · subst hx
      have hstrip : stripColon (':' :: s) = s := rfl
      rw [hstrip]
      apply matchList_congr
      intro c hc
      cases s with
      | nil => rw [match_nil, match_colon_only c (hch c hc).1 (hch c hc).2]
      | cons y ys =>
        have hy : y ≠ ':' := fun hy => h2 ys (by rw [hy])
        rw [match_colon_cons c (y :: ys) (List.cons_ne_nil _ _) (by simp [hy])]
    · have : stripColon (x :: s) = x :: s := by simp [stripColon, hx]
      rw [this]

/-- A prefix of a text all of whose characters satisfy `p` lies within `takeWhile p`. -/
theorem leading_part_takeWhile (p : Char → Bool) (q l : List Char) (hq : q <+: l)
    (hp : ∀ c ∈ q, p c = true) : q <+: l.takeWhile p := by
  induction q generalizing l with
  | nil => exact List.nil_prefix
  | cons x xs ih =>
    cases l with
    | nil => simp at hq
    | cons y ys =>
      rw [List.cons_prefix_cons] at hq
      obtain ⟨rfl, hq⟩ := hq
      have hx := hp x (List.mem_cons_self _ _)
      simp only [List.takeWhile_cons, hx, if_true]
      rw [List.cons_prefix_cons]
      exact ⟨rfl, ih ys hq (fun c hc => hp c (List.mem_cons_of_mem _ hc))⟩

/-! ## The claims -/

/-- C1: for every tree and every input line `parse` returns, and the handler invocations it
makes (handler, query flag, parameters) are the concatenation, from left to right, of the
invocations `match` makes on the pieces of the input split on `';'`; an empty piece makes
none.  On the tree of `testParsing` the line `"sEnS:voltage 100V;sEnS:current 0.2ma"`
invokes `handleVoltage(false, "100V")` and then `handleCurrent(false, "0.2ma")`. -/
theorem parse_calls_eq_piece_calls :
    (∀ (H : Type) (n : Node H) (input : List Char),
        n.parse input
          = some ((input.splitOn ';').flatMap (fun piece => (n.match piece).2))) ∧
      (∀ (H : Type) (n : Node H), (n.match []).2 = []) ∧
      testParsingTree.parse "sEnS:voltage 100V;sEnS:current 0.2ma".toList
        = some [⟨Handler.handleVoltage, false, "100V".toList⟩,
                ⟨Handler.handleCurrent, false, "0.2ma".toList⟩] :=
  ⟨fun _ n input => parseLoop_eq n input.length input (Nat.le_refl _),
    fun _ n => by rw [match_nil], by decide⟩

/-- C2, as stated, fails: on the tree of `testParsing` the line
`"SENS:VOLT 100V;SENS:CURR 0.2mA"` invokes the voltage handler only, because `CURR` is
neither `CUR` nor `CURrent`. -/
theorem parse_curr_invokes_voltage_only :
    testParsingTree.parse "SENS:VOLT 100V;SENS:CURR 0.2mA".toList
        = some [⟨Handler.handleVoltage, false, "100V".toList⟩] ∧
      testParsingTree.parse "SENS:VOLT 100V;SENS:CURR 0.2mA".toList
        ≠ some [⟨Handler.handleVoltage, false, "100V".toList⟩,
                ⟨Handler.handleCurrent, false, "0.2mA".toList⟩] := by
  decide

/-- C2, amended: on the tree of `testParsing` the lines `"SENS:VOLT 100V;SENS:CUR 0.2mA"`
and `"SENS:VOLT 100V;SENS:CURRENT 0.2mA"` invoke the voltage handler with `"100V"` and
then the current handler with `"0.2mA"`, each exactly once. -/
theorem parse_volt_then_cur :
    testParsingTree.parse "SENS:VOLT 100V;SENS:CUR 0.2mA".toList
        = some [⟨Handler.handleVoltage, false, "100V".toList⟩,
                ⟨Handler.handleCurrent, false, "0.2mA".toList⟩] ∧
      testParsingTree.parse "SENS:VOLT 100V;SENS:CURRENT 0.2mA".toList
        = some [⟨Handler.handleVoltage, false, "100V".toList⟩,
                ⟨Handler.handleCurrent, false, "0.2mA".toList⟩] := by
  decide

/-- C3, as stated, fails: the constructor accepts the keyword `CH1set` and derives the short
form `CH1`, while the leading run of uppercase letters is `CH`. -/
theorem keywordShort_ne_upperRun :
    (Node.Node "CH1set".toList false [] (none : Option Handler)).map Node.keywordShort
        = some "CH1".toList ∧
      upperRun "CH1set".toList = "CH".toList := by
  decide

/-- C3, amended: for every keyword the constructor accepts, `keywordShort` is the text
before the first lowercase letter of the keyword, which is its longest prefix without a
lowercase letter; it is the maximal leading run of uppercase letters when the keyword
consists of letters only. -/
theorem keywordShort_eq_beforeLower {H : Type} (keyword : List Char) (optional : Bool)
    (children : List (Node H)) (handler : Option H) (n : Node H)
    (hn : Node.Node keyword optional children handler = some n) :
    n.keywordShort = beforeLower keyword ∧
      (∀ q : List Char, q <+: keyword → (∀ c ∈ q, islower c = false) →
        q <+: n.keywordShort) ∧
      ((∀ c ∈ keyword, isupper c = true ∨ islower c = true) →
        n.keywordShort = upperRun keyword) := by
  obtain ⟨_, rfl⟩ := constructor_some keyword optional children handler n hn
  refine ⟨rfl, ?_, ?_⟩
  · intro q hq hl
    exact leading_part_takeWhile (fun c => !islower c) q keyword hq (fun c hc => by simp [hl c hc])
  · intro h
    exact beforeLower_letters keyword h

/-- C3, amended, on the keyword `VOLTage`, which gives `VOLT`. -/
theorem keywordShort_eq_beforeLower_witness :
    Node.Node "VOLTage".toList false [] (some Handler.handleVoltage) = some voltageNode ∧
      voltageNode.keywordShort = beforeLower "VOLTage".toList ∧
      voltageNode.keywordShort = upperRun "VOLTage".toList ∧
      voltageNode.keywordShort = "VOLT".toList :=
  ⟨rfl,
    (keywordShort_eq_beforeLower "VOLTage".toList false [] (some Handler.handleVoltage)
      voltageNode rfl).1,
    (keywordShort_eq_beforeLower "VOLTage".toList false [] (some Handler.handleVoltage)
      voltageNode rfl).2.2 (by decide),
    rfl⟩

/-- C4: for every node the constructor accepts, `keywordShort` is a non-empty prefix of
`keyword`. -/
theorem keywordShort_prefix_nonempty {H : Type} (keyword : List Char) (optional : Bool)
    (children : List (Node H)) (handler : Option H) (n : Node H)
    (hn : Node.Node keyword optional children handler = some n) :
    n.keywordShort ≠ [] ∧ n.keywordShort <+: n.keyword := by
  obtain ⟨⟨c, rest, rfl, hc⟩, rfl⟩ := constructor_some keyword optional children handler n hn
  exact ⟨beforeLower_ne_nil c rest hc, beforeLower_prefix_keyword _⟩

/-- C4 on the node `SENSor` of the test tree. -/
theorem keywordShort_prefix_nonempty_witness :
    Node.Node "SENSor".toList false testTree.children none = some testTree ∧
      testTree.keywordShort ≠ [] ∧ testTree.keywordShort <+: testTree.keyword :=
  ⟨rfl, keywordShort_prefix_nonempty "SENSor".toList false testTree.children none testTree rfl⟩

/-- C5, as stated, fails: the constructor accepts the keywords `AB?` and `MEAS:volt`, and
the nodes built from them do not match their own keyword, because `match` drops the
trailing `'?'` of the unit and ends the unit at the first `':'`. -/
theorem match_own_keyword_fails :
    Node.Node "AB?".toList false [] none = some queryKeywordNode ∧
      sameUpToCase "AB?".toList queryKeywordNode.keyword ∧
      (queryKeywordNode.match "AB?".toList).1 = none ∧
      Node.Node "MEAS:volt".toList false [] none = some pathKeywordNode ∧
      sameUpToCase "MEAS:volt".toList pathKeywordNode.keyword ∧
      (pathKeywordNode.match "MEAS:volt".toList).1 = none :=
  ⟨rfl, by decide, rfl, rfl, by decide, rfl⟩

/-- C5, amended: for every node `n` the constructor accepts whose keyword contains no `':'`
and no space and whose keyword and short form do not end in `'?'`, and every text `u` equal
to the keyword or to the short form up to letter case, `n.match u` succeeds with leaf `n`,
query flag false and empty parameters, and invokes the handler of `n`, if any, once. -/
theorem match_keyword_spelling {H : Type} (keyword : List Char) (optional : Bool)
    (children : List (Node H)) (handler : Option H) (n : Node H) (u : List Char)
    (hn : Node.Node keyword optional children handler = some n)
    (hcolon : ':' ∉ keyword) (hspace : ' ' ∉ keyword)
    (hq : keyword.getLast? ≠ some '?') (hqs : n.keywordShort.getLast? ≠ some '?')
    (hu : sameUpToCase u n.keyword ∨ sameUpToCase u n.keywordShort) :
    n.match u = (some ⟨n, false, []⟩, invoke n.handler false []) := by
  obtain ⟨⟨c, rest, hk, hc⟩, hraw⟩ := constructor_some keyword optional children handler n hn
  have hkw : n.keyword = keyword := by rw [hraw]; rfl
  have hks : n.keywordShort = beforeLower keyword := by rw [hraw]; rfl
  have hsub : ∀ x, x ∈ n.keywordShort → x ∈ keyword := by
    intro x hx
    rw [hks] at hx
    exact (beforeLower_prefix_keyword keyword).subset hx
  have hksne : n.keywordShort ≠ [] := by
    rw [hks, hk]; exact beforeLower_ne_nil c rest hc
  have hkne : keyword ≠ [] := by rw [hk]; exact List.cons_ne_nil _ _
  rcases hu with hu | hu
  · rw [hkw] at hu
    refine match_bare_unit n u ?_ ?_ ?_ ?_ (Or.inr ?_)
    · exact fun h => hkne ((sameUpToCase_nil u keyword hu).1 h)
    · exact fun h => hcolon ((sameUpToCase_mem u keyword ':' hu rfl rfl).1 h)
    · exact fun h => hspace ((sameUpToCase_mem u keyword ' ' hu rfl rfl).1 h)
    · exact fun h => hq ((sameUpToCase_getLast u keyword '?' hu rfl rfl).1 h)
    · rw [hkw]; exact (equal_iff u keyword).2 hu
  · refine match_bare_unit n u ?_ ?_ ?_ ?_ (Or.inl ?_)
    · exact fun h => hksne ((sameUpToCase_nil u _ hu).1 h)
    · exact fun h => hcolon (hsub _ ((sameUpToCase_mem u _ ':' hu rfl rfl).1 h))
    · exact fun h => hspace (hsub _ ((sameUpToCase_mem u _ ' ' hu rfl rfl).1 h))
    · exact fun h => hqs ((sameUpToCase_getLast u _ '?' hu rfl rfl).1 h)
    · exact (equal_iff u _).2 hu

/-- C5, amended, on the node `VOLTage`: the spellings `vOlT` and `voltAGE` give the same
result. -/
theorem match_keyword_spelling_witness :
    voltageNode.match "vOlT".toList
        = (some ⟨voltageNode, false, []⟩, [⟨Handler.handleVoltage, false, []⟩]) ∧
      voltageNode.match "voltAGE".toList = voltageNode.match "vOlT".toList :=
  have short := match_keyword_spelling "VOLTage".toList false [] (some Handler.handleVoltage)
    voltageNode "vOlT".toList rfl (by decide) (by decide) (by decide) (by decide)
    (Or.inr (by decide))
  have full := match_keyword_spelling "VOLTage".toList false [] (some Handler.handleVoltage)
    voltageNode "voltAGE".toList rfl (by decide) (by decide) (by decide) (by decide)
    (Or.inl (by decide))
  ⟨short, full.trans short.symm⟩

/-- C6: when `match` returns a result, its parameters are the part of the input after the
first space of the input, verbatim, and they are empty when the input has no space. -/
theorem match_parameters_after_first_space {H : Type} (n : Node H) (input : List Char)
    (r : MatchResult H) (h : (n.match input).1 = some r) :
    r.parameters = afterFirstSpace input ∧ (' ' ∉ input → r.parameters = []) := by
  have hp := match_parameters n input r h
  refine ⟨hp, fun hs => ?_⟩
  rw [hp]
  apply afterFirstSpace_of_path
  unfold pathText
  rw [List.takeWhile_eq_self_iff]
  intro c hc
  have : c ≠ ' ' := fun h => hs (h ▸ hc)
  simp [this]

/-- C6 on the test tree: `match("sEnS:voltage 100V")` gives the leaf `VOLTage`, query flag
false and the parameters `"100V"`. -/
theorem match_parameters_after_first_space_witness :
    (testTree.match "sEnS:voltage 100V".toList).1
        = some ⟨voltageNode, false, "100V".toList⟩ ∧
      "100V".toList = afterFirstSpace "sEnS:voltage 100V".toList :=
  ⟨rfl, (match_parameters_after_first_space testTree "sEnS:voltage 100V".toList
    ⟨voltageNode, false, "100V".toList⟩ rfl).1⟩

/-- C7: when `match` returns a result, its query flag is true exactly when the final path
unit (the unit that ends at the first space, or at the end of the input) ends in `'?'`; and
when the input itself ends with that `'?'`, the parameters are empty. -/
theorem match_isQuery_iff {H : Type} (n : Node H) (input : List Char)
    (r : MatchResult H) (h : (n.match input).1 = some r) :
    (r.isQuery = true ↔ (finalUnit input).getLast? = some '?') ∧
      ((finalUnit input).getLast? = some '?' → pathText input = input →
        r.parameters = []) := by
  refine ⟨?_, fun _ hp => ?_⟩
  · rw [match_isQuery n input r h, finalUnit_question]
  · rw [match_parameters n input r h, afterFirstSpace_of_path input hp]

/-- C7 on the test tree: `match("sEnS:voltage?")` gives the leaf `VOLTage`, query flag true
and empty parameters. -/
theorem match_isQuery_iff_witness :
    (testTree.match "sEnS:voltage?".toList).1 = some ⟨voltageNode, true, []⟩ ∧
      (finalUnit "sEnS:voltage?".toList).getLast? = some '?' ∧
      pathText "sEnS:voltage?".toList = "sEnS:voltage?".toList ∧
      (true = true ↔ (finalUnit "sEnS:voltage?".toList).getLast? = some '?') ∧
      MatchResult.parameters (⟨voltageNode, true, []⟩ : MatchResult Handler) = [] :=
  ⟨rfl, by decide, by decide,
    (match_isQuery_iff testTree "sEnS:voltage?".toList ⟨voltageNode, true, []⟩ rfl).1,
    (match_isQuery_iff testTree "sEnS:voltage?".toList ⟨voltageNode, true, []⟩ rfl).2
      (by decide) (by decide)⟩

/-- C8, as stated, fails: `POWer` is optional and the first unit of `"::VOLT"` (empty, after
the one leading `':'` that `match` removes) is neither `POW` nor `POWer`, yet
`match("::VOLT")` resolves to the leaf `VOLTage` while `matchChildren("::VOLT")` is
"no match".  (Both calls test an empty unit for `'?'`; the character read there is the
`':'` just removed.) -/
theorem double_colon_skip_differs :
    powerTree.optional = true ∧
      ¬ sameUpToCase (dropQuestion (firstUnit (stripColon "::VOLT".toList)))
          powerTree.keywordShort ∧
      ¬ sameUpToCase (dropQuestion (firstUnit (stripColon "::VOLT".toList)))
          powerTree.keyword ∧
      (powerTree.match "::VOLT".toList).1 = some ⟨voltageNode, false, []⟩ ∧
      (powerTree.matchChildren "::VOLT".toList).1 = none :=
  ⟨rfl, by decide, by decide, rfl, rfl⟩

/-- C8, amended: for every optional node `A` and every input whose first unit (trailing
`'?'` dropped) equals neither the short nor the full form of `A` up to letter case,
`A.match(input)` equals `A.matchChildren` applied to the input without the one leading
`':'` that `match` removes; when the children of `A` were built by the constructor and the
input does not begin with two colons, this is `A.matchChildren(input)`. -/
theorem optional_skip {H : Type} (n : Node H) (input : List Char)
    (hopt : n.optional = true)
    (hshort : ¬ sameUpToCase (dropQuestion (firstUnit (stripColon input))) n.keywordShort)
    (hfull : ¬ sameUpToCase (dropQuestion (firstUnit (stripColon input))) n.keyword) :
    n.match input = n.matchChildren (stripColon input) ∧
      ((∀ c ∈ n.children, ∃ kw opt ch h, Node.Node kw opt ch h = some c) →
        (∀ s, input ≠ ':' :: ':' :: s) → n.match input = n.matchChildren input) := by
  have hA : accepts n (firstUnit (stripColon input)) = false := by
    rw [← equal_iff] at hshort hfull
    simp [accepts, hshort, hfull]
  have h1 : n.match input = n.matchChildren (stripColon input) := by
    rw [match_eq]
    by_cases h0 : input = []
    · subst h0
      simp [Node.matchChildren, stripColon, matchList_nil_input]
    · simp [h0, hA, hopt, Node.matchChildren]
  refine ⟨h1, fun hch h2 => ?_⟩
  rw [h1]
  unfold Node.matchChildren
  apply matchList_stripColon _ _ _ h2
  intro c hc
  obtain ⟨kw, opt, ch, h, hn⟩ := hch c hc
  obtain ⟨⟨x, rest, rfl, hx⟩, rfl⟩ := constructor_some kw opt ch h c hn
  exact ⟨List.cons_ne_nil _ _, beforeLower_ne_nil x rest hx⟩

/-- C8, amended, on the tree `POWer(optional) -> [VOLTage]`: `match("VOLT 5")` is
`matchChildren("VOLT 5")` and resolves to the leaf `VOLTage` with query flag false and the
parameters `"5"`. -/
theorem optional_skip_witness :
    powerTree.match "VOLT 5".toList = powerTree.matchChildren "VOLT 5".toList ∧
      (powerTree.match "VOLT 5".toList).1 = some ⟨voltageNode, false, "5".toList⟩ :=
  ⟨(optional_skip powerTree "VOLT 5".toList rfl (by decide) (by decide)).2
      (fun c hc => by
        rw [List.mem_singleton.1 hc]
        exact ⟨"VOLTage".toList, false, [], some Handler.handleVoltage, rfl⟩)
      (fun s hs => by simp at hs),
    rfl⟩

/-- C9: on the tree of `test`, `match("SENSor:POWer:VOLTage")` and `match("SENS:VOLT")`
succeed with the same result, leaf `VOLTage`, query flag false and empty parameters, and so
do the test inputs `"sEnSor:voltage"`, `"sEnSor:PoW:voltage"` and `"SENSOR:PoWer:voltage"`. -/
theorem deeper_addressing_same_leaf :
    (testTree.match "SENSor:POWer:VOLTage".toList).1 = some ⟨voltageNode, false, []⟩ ∧
      (testTree.match "SENS:VOLT".toList).1 = some ⟨voltageNode, false, []⟩ ∧
      (testTree.match "sEnSor:voltage".toList).1 = some ⟨voltageNode, false, []⟩ ∧
      (testTree.match "sEnSor:PoW:voltage".toList).1 = some ⟨voltageNode, false, []⟩ ∧
      (testTree.match "SENSOR:PoWer:voltage".toList).1 = some ⟨voltageNode, false, []⟩ :=
  ⟨rfl, rfl, rfl, rfl, rfl⟩

/-- C10: when `match` returns a result, the handler invocations made during the call are
exactly one invocation of the handler of the result leaf, with the query flag and the
parameters of the result, when that leaf has a handler, and none at all when it has none. -/
theorem match_invokes_leaf_handler_only {H : Type} (n : Node H) (input : List Char)
    (r : MatchResult H) (h : (n.match input).1 = some r) :
    (∀ f, r.leafNode.handler = some f →
        (n.match input).2 = [⟨f, r.isQuery, r.parameters⟩]) ∧
      (r.leafNode.handler = none → (n.match input).2 = []) := by
  have hc := match_calls n input
  rw [h] at hc
  simp only [callsOf] at hc
  rw [hc]
  constructor
  · intro f hf
    rw [hf]; rfl
  · intro hf
    rw [hf]; rfl

/-- C10 on the tree of `test`: `match("sEnS:voltage 100V")` invokes `handleVoltage` once,
with `(false, "100V")`, and `match("sEnS:currEnt")`, whose leaf has no handler, invokes
nothing. -/
theorem match_invokes_leaf_handler_only_witness :
    (testTree.match "sEnS:voltage 100V".toList).2
        = [⟨Handler.handleVoltage, false, "100V".toList⟩] ∧
      (testTree.match "sEnS:currEnt".toList).2 = [] :=
  ⟨(match_invokes_leaf_handler_only testTree "sEnS:voltage 100V".toList
      ⟨voltageNode, false, "100V".toList⟩ rfl).1 Handler.handleVoltage rfl,
    (match_invokes_leaf_handler_only testTree "sEnS:currEnt".toList
      ⟨currentNodeBare, false, []⟩ rfl).2 rfl⟩


/-! ## The loop over the children -/

/-- The result of the loop over the children is the first result of a child. -/
theorem matchList_findSome (ch : List (Node H)) (input : List Char) :
    (matchList ch input).1 = ch.findSome? (fun c => (c.match input).1) := by
  induction ch with
  | nil => rfl
  | cons c cs ih =>
    rw [matchList_cons, List.findSome?_cons]
    rcases hm : c.match input with ⟨_ | r, calls⟩
    · simpa using ih
    · rfl

/-- The children in front of the first one that returns a result, and those behind it,
do not contribute to the outcome of the loop. -/
theorem matchList_first (pre post : List (Node H)) (c : Node H) (input : List Char)
    (r : MatchResult H) (hpre : ∀ d ∈ pre, (d.match input).1 = none)
    (hc : (c.match input).1 = some r) :
    matchList (pre ++ c :: post) input = c.match input := by
  induction pre with
  | nil =>
    rw [List.nil_append, matchList_cons]
    rcases hm : c.match input with ⟨_ | r', calls⟩
    · rw [hm] at hc; simp at hc
    · rfl
  | cons d ds ih =>
    have hd := hpre d (List.mem_cons_self _ _)
    have hcalls := match_calls d input
    rw [hd] at hcalls
    rw [List.cons_append, matchList_cons, ih (fun e he => hpre e (List.mem_cons_of_mem _ he))]
    rcases hm : d.match input with ⟨_ | r', calls⟩
    · rw [hm] at hcalls
      simp only [callsOf] at hcalls
      simp [hcalls]
    · rw [hm] at hd; simp at hd


/-! ## Inputs that differ in letter case only -/

/-- Two characters with the same lower-case form are the same non-letter, or neither is. -/
theorem tolower_congr_eq (x y z : Char) (h : tolower x = tolower y)
    (hz1 : isupper z = false) (hz2 : islower z = false) : x = z ↔ y = z := by
  rw [← tolower_eq_iff x z hz1 hz2, ← tolower_eq_iff y z hz1 hz2, h]

theorem tolower_congr_isSep (x y : Char) (h : tolower x = tolower y) : isSep x = isSep y := by
  have h1 := tolower_congr_eq x y ':' h rfl rfl
  have h2 := tolower_congr_eq x y ' ' h rfl rfl
  unfold isSep
  rw [Bool.eq_iff_iff]
  simp [h1, h2]

theorem sameUpToCase_cons (x y : Char) (xs ys : List Char) :
    sameUpToCase (x :: xs) (y :: ys) ↔ tolower x = tolower y ∧ sameUpToCase xs ys := by
  simp [sameUpToCase]

theorem sameUpToCase_nil_left (b : List Char) : sameUpToCase [] b ↔ b = [] := by
  cases b <;> simp [sameUpToCase]

theorem sameUpToCase_nil_right (a : List Char) : sameUpToCase a [] ↔ a = [] := by
  cases a <;> simp [sameUpToCase]

theorem sameUpToCase_stripColon (a b : List Char) (h : sameUpToCase a b) :
    sameUpToCase (stripColon a) (stripColon b) := by
  cases a with
  | nil =>
    rw [(sameUpToCase_nil_left b).1 h]; exact rfl
  | cons x xs =>
    cases b with
    | nil => exact absurd ((sameUpToCase_nil_right _).1 h) (List.cons_ne_nil _ _)
    | cons y ys =>
      obtain ⟨hxy, hrest⟩ := (sameUpToCase_cons x y xs ys).1 h
      have hc := tolower_congr_eq x y ':' hxy rfl rfl
      by_cases hx : x = ':'
      · have hy := hc.1 hx
        subst hx; subst hy
        exact hrest
      · have hy : y ≠ ':' := fun hy => hx (hc.2 hy)
        simpa [stripColon, hx, hy] using h

theorem sameUpToCase_firstUnit (a b : List Char) (h : sameUpToCase a b) :
    sameUpToCase (firstUnit a) (firstUnit b) := by
  induction a generalizing b with
  | nil => rw [(sameUpToCase_nil_left b).1 h]; exact rfl
  | cons x xs ih =>
    cases b with
    | nil => exact absurd ((sameUpToCase_nil_right _).1 h) (List.cons_ne_nil _ _)
    | cons y ys =>
      obtain ⟨hxy, hrest⟩ := (sameUpToCase_cons x y xs ys).1 h
      have hs := tolower_congr_isSep x y hxy
      cases hx : isSep x with
      | true =>
        have hy : isSep y = true := by rw [← hs, hx]
        simp [firstUnit, hx, hy, sameUpToCase]
      | false =>
        have hy : isSep y = false := by rw [← hs, hx]
        have h1 : firstUnit (x :: xs) = x :: firstUnit xs := by simp [firstUnit, hx]
        have h2 : firstUnit (y :: ys) = y :: firstUnit ys := by simp [firstUnit, hy]
        rw [h1, h2, sameUpToCase_cons]
        exact ⟨hxy, ih ys hrest⟩

theorem sameUpToCase_afterUnit (a b : List Char) (h : sameUpToCase a b) :
    sameUpToCase (afterUnit a) (afterUnit b) := by
  induction a generalizing b with
  | nil => rw [(sameUpToCase_nil_left b).1 h]; exact rfl
  | cons x xs ih =>
    cases b with
    | nil => exact absurd ((sameUpToCase_nil_right _).1 h) (List.cons_ne_nil _ _)
    | cons y ys =>
      obtain ⟨hxy, hrest⟩ := (sameUpToCase_cons x y xs ys).1 h
      have hs := tolower_congr_isSep x y hxy
      cases hx : isSep x with
      | true =>
        have hy : isSep y = true := by rw [← hs, hx]
        have h1 : afterUnit (x :: xs) = x :: xs := by simp [afterUnit, hx]
        have h2 : afterUnit (y :: ys) = y :: ys := by simp [afterUnit, hy]
        rw [h1, h2]; exact h
      | false =>
        have hy : isSep y = false := by rw [← hs, hx]
        have h1 : afterUnit (x :: xs) = afterUnit xs := by simp [afterUnit, hx]
        have h2 : afterUnit (y :: ys) = afterUnit ys := by simp [afterUnit, hy]
        rw [h1, h2]
        exact ih ys hrest

theorem sameUpToCase_endsWithQuestion (a b : List Char) (h : sameUpToCase a b) :
    endsWithQuestion a = endsWithQuestion b := by
  have := sameUpToCase_getLast a b '?' h rfl rfl
  unfold endsWithQuestion
  rw [Bool.eq_iff_iff]
  simpa using this

theorem sameUpToCase_dropQuestion (a b : List Char) (h : sameUpToCase a b) :
    sameUpToCase (dropQuestion a) (dropQuestion b) := by
  unfold dropQuestion
  rw [sameUpToCase_endsWithQuestion a b h]
  split
  · unfold sameUpToCase at *
    rw [List.map_dropLast, List.map_dropLast, h]
  · exact h

theorem accepts_congr (n : Node H) (a b : List Char) (h : sameUpToCase a b) :
    accepts n a = accepts n b := by
  have hd := sameUpToCase_dropQuestion a b h
  have key : ∀ k : List Char, equal caseInsensitiveCompare (dropQuestion a) k
      = equal caseInsensitiveCompare (dropQuestion b) k := by
    intro k
    rw [Bool.eq_iff_iff, equal_iff, equal_iff]
    unfold sameUpToCase at *
    rw [hd]
  unfold accepts
  rw [key, key]

theorem sameLeaf_matchList (ch : List (Node H)) (a b : List Char)
    (ih : ∀ c ∈ ch, sameLeaf (c.match a).1 (c.match b).1) :
    sameLeaf (matchList ch a).1 (matchList ch b).1 := by
  induction ch with
  | nil => exact trivial
  | cons c cs ihl =>
    have hc := ih c (List.mem_cons_self _ _)
    have hcs := ihl (fun d hd => ih d (List.mem_cons_of_mem _ hd))
    rw [matchList_cons, matchList_cons]
    rcases hma : c.match a with ⟨_ | ra, ca⟩ <;> rcases hmb : c.match b with ⟨_ | rb, cb⟩ <;>
      rw [hma, hmb] at hc
    · exact hcs
    · exact absurd hc (by simp [sameLeaf])
    · exact absurd hc (by simp [sameLeaf])
    · exact hc

/-- Two inputs that differ in letter case only resolve to the same leaf with the same query
flag, or both fail. -/
theorem match_sameLeaf (n : Node H) (a b : List Char) (h : sameUpToCase a b) :
    sameLeaf (n.match a).1 (n.match b).1 := by
  revert a b
  refine node_induction
    (P := fun n => ∀ a b, sameUpToCase a b → sameLeaf (n.match a).1 (n.match b).1) ?_ n
  intro kw ks opt ch hd ih a b h
  have hl : ∀ x y, sameUpToCase x y → sameLeaf (matchList ch x).1 (matchList ch y).1 :=
    fun x y hxy => sameLeaf_matchList ch x y (fun c hc => ih c hc x y hxy)
  have hs := sameUpToCase_stripColon a b h
  have hu := sameUpToCase_firstUnit _ _ hs
  have ha := sameUpToCase_afterUnit _ _ hs
  have hq := sameUpToCase_endsWithQuestion _ _ hu
  have hacc := accepts_congr (Node.raw kw ks opt ch hd) _ _ hu
  rw [match_eq, match_eq _ b]
  by_cases ha0 : a = []
  · have hb0 : b = [] := by rw [ha0] at h; exact (sameUpToCase_nil_left b).1 h
    simp [ha0, hb0, sameLeaf]
  · have hb0 : b ≠ [] := fun hb => ha0 (by rw [hb] at h; exact (sameUpToCase_nil_right a).1 h)
    simp only [ha0, hb0, if_false]
    rw [← hacc]
    split
    · cases hA : afterUnit (stripColon a) with
      | nil =>
        rw [hA] at ha
        rw [(sameUpToCase_nil_left _).1 ha]
        exact ⟨rfl, hq⟩
      | cons x xs =>
        cases hB : afterUnit (stripColon b) with
        | nil =>
          rw [hA, hB] at ha
          exact absurd ((sameUpToCase_nil_right _).1 ha) (List.cons_ne_nil _ _)
        | cons y ys =>
          rw [hA, hB] at ha
          obtain ⟨hxy, _⟩ := (sameUpToCase_cons x y xs ys).1 ha
          have hc := tolower_congr_eq x y ':' hxy rfl rfl
          by_cases hx : x = ':'
          · have hy := hc.1 hx
            simp only [hx, hy, if_true]
            rw [hx, hy] at ha
            exact hl _ _ ha
          · have hy : y ≠ ':' := fun hy => hx (hc.2 hy)
            simp only [hx, hy, if_false]
            exact ⟨rfl, hq⟩
    · simp only [Node.optional, Node.children]
      split
      · exact hl _ _ hs
      · exact trivial

/-! ## A question mark inside the path -/

theorem firstUnit_append_sep (u rest : List Char) (c : Char) (hu : ∀ x ∈ u, isSep x = false)
    (hc : isSep c = true) : firstUnit (u ++ c :: rest) = u := by
  unfold firstUnit
  rw [List.takeWhile_append_of_pos (fun x hx => by simp [hu x hx])]
  simp [hc]

theorem afterUnit_append_sep (u rest : List Char) (c : Char) (hu : ∀ x ∈ u, isSep x = false)
    (hc : isSep c = true) : afterUnit (u ++ c :: rest) = c :: rest := by
  unfold afterUnit
  rw [List.dropWhile_append_of_pos (fun x hx => by simp [hu x hx])]
  simp [hc]

theorem stripColon_append (u rest : List Char) (hne : u ≠ [])
    (hu : ∀ x ∈ u, isSep x = false) : stripColon (u ++ rest) = u ++ rest := by
  cases u with
  | nil => exact absurd rfl hne
  | cons x xs =>
    have hx : x ≠ ':' := by
      intro hx
      have := hu x (List.mem_cons_self _ _)
      rw [hx] at this
      exact absurd this (by decide)
    simp [stripColon, hx]

/-- A `'?'` at the end of a unit that is followed by a deeper path level has no effect. -/
theorem match_inner_question (n : Node H) (u t : List Char) (hne : u ≠ [])
    (hu : ∀ x ∈ u, isSep x = false) (hq : u.getLast? ≠ some '?') :
    n.match (u ++ '?' :: ':' :: t) = n.match (u ++ ':' :: t) := by
  revert n
  refine node_induction
    (P := fun n => n.match (u ++ '?' :: ':' :: t) = n.match (u ++ ':' :: t)) ?_
  intro kw ks opt ch hd ih
  have hu2 : ∀ x ∈ u ++ ['?'], isSep x = false := by
    intro x hx
    rcases List.mem_append.1 hx with hx | hx
    · exact hu x hx
    · rw [List.mem_singleton.1 hx]; rfl
  have e1 : u ++ '?' :: ':' :: t = (u ++ ['?']) ++ ':' :: t := by simp
  have hs1 : stripColon (u ++ '?' :: ':' :: t) = u ++ '?' :: ':' :: t :=
    stripColon_append u _ hne hu
  have hs2 : stripColon (u ++ ':' :: t) = u ++ ':' :: t := stripColon_append u _ hne hu
  have hf1 : firstUnit (u ++ '?' :: ':' :: t) = u ++ ['?'] := by
    rw [e1]; exact firstUnit_append_sep _ t ':' hu2 rfl
  have hf2 : firstUnit (u ++ ':' :: t) = u := firstUnit_append_sep u t ':' hu rfl
  have ha1 : afterUnit (u ++ '?' :: ':' :: t) = ':' :: t := by
    rw [e1]; exact afterUnit_append_sep _ t ':' hu2 rfl
  have ha2 : afterUnit (u ++ ':' :: t) = ':' :: t := afterUnit_append_sep u t ':' hu rfl
  have hd1 : dropQuestion (u ++ ['?']) = u := by
    simp [dropQuestion, endsWithQuestion]
  have hd2 : dropQuestion u = u := by
    simp [dropQuestion, endsWithQuestion, hq]
  have hacc : accepts (Node.raw kw ks opt ch hd) (u ++ ['?'])
      = accepts (Node.raw kw ks opt ch hd) u := by
    simp only [accepts, hd1, hd2]
  have h01 : u ++ '?' :: ':' :: t ≠ [] := by simp
  have h02 : u ++ ':' :: t ≠ [] := by simp
  rw [match_eq, match_eq _ (u ++ ':' :: t)]
  simp only [h01, h02, if_false, hs1, hs2, hf1, hf2, ha1, ha2, hacc, if_true]
  split
  · rfl
  · simp only [Node.optional, Node.children]
    split
    · exact matchList_congr ch _ _ ih
    · rfl

/-! ## One iteration of the loop of `parse` -/

theorem parseSegment_eq (input : List Char) :
    parseSegment input
      = (if input.head? = some ';' then input.drop 1 else input).takeWhile (fun c => c != ';') := by
  unfold parseSegment
  exact take_semicolon _

theorem parseRest_eq (input : List Char) :
    parseRest input
      = (if input.head? = some ';' then input.drop 1 else input).dropWhile (fun c => c != ';') := by
  unfold parseRest
  exact drop_semicolon _

/-- One iteration of the loop of `parse` on a non-empty input leaves a shorter input. -/
theorem parseRest_length (input : List Char) (h : input ≠ []) :
    (parseRest input).length < input.length := by
  rw [parseRest_eq]
  cases input with
  | nil => exact absurd rfl h
  | cons x xs =>
    by_cases hx : x = ';'
    · subst hx
      simp only [List.head?_cons, if_true, List.drop_succ_cons, List.drop_zero,
        List.length_cons]
      exact Nat.lt_succ_of_le (List.dropWhile_sublist _).length_le
    · have hd : (x :: xs).dropWhile (fun c => c != ';') = xs.dropWhile (fun c => c != ';') := by
        simp [hx]
      simp only [List.head?_cons, Option.some.injEq, hx, if_false, hd, List.length_cons]
      exact Nat.lt_succ_of_le (List.dropWhile_sublist _).length_le

/-- An iteration that does not drop a leading `';'` hands a non-empty segment to `match`. -/
theorem parseSegment_ne_nil (input : List Char) (h : input ≠ [])
    (hs : input.head? ≠ some ';') : parseSegment input ≠ [] := by
  rw [parseSegment_eq]
  cases input with
  | nil => exact absurd rfl h
  | cons x xs =>
    have hx : x ≠ ';' := fun hx => hs (by rw [hx]; rfl)
    simp [hx]

theorem parseLoop_succ (n : Node H) (fuel : Nat) (input : List Char) :
    n.parseLoop (fuel + 1) input =
      if input.length > 0 then
        (n.parseLoop fuel (parseRest input)).map
          (fun rest => (n.match (parseSegment input)).2 ++ rest)
      else some [] := by
  rw [Node.parseLoop]
  rfl

/-! ## The path from the root to the leaf -/

theorem names_iff_accepts (n : Node H) (u : List Char) : names n u ↔ accepts n u = true := by
  unfold names accepts
  rw [Bool.or_eq_true, equal_iff, equal_iff]

theorem splitOn_colon_of_not_mem (u : List Char) (h : ':' ∉ u) : u.splitOn ':' = [u] := by
  induction u with
  | nil => rfl
  | cons x xs ih =>
    have hx : x ≠ ':' := fun hx => h (by rw [hx]; exact List.mem_cons_self _ _)
    have hxs : ':' ∉ xs := fun hm => h (List.mem_cons_of_mem _ hm)
    have := ih hxs
    simp only [List.splitOn] at this ⊢
    rw [List.splitOnP_cons]
    simp [hx, this]

theorem splitOn_colon_append (u q : List Char) (h : ':' ∉ u) :
    (u ++ ':' :: q).splitOn ':' = u :: q.splitOn ':' := by
  induction u with
  | nil => simp [List.splitOn, List.splitOnP_cons]
  | cons x xs ih =>
    have hx : x ≠ ':' := fun hx => h (by rw [hx]; exact List.mem_cons_self _ _)
    have hxs : ':' ∉ xs := fun hm => h (List.mem_cons_of_mem _ hm)
    have := ih hxs
    simp only [List.splitOn, List.cons_append] at this ⊢
    rw [List.splitOnP_cons]
    simp [hx, this]

theorem firstUnit_no_colon (s : List Char) : ':' ∉ firstUnit s := by
  intro h
  have := List.mem_takeWhile_imp h
  simp [isSep] at this

theorem hasDoubleColon_append_right (x y : List Char) (h : hasDoubleColon (x ++ y) = false) :
    hasDoubleColon y = false := by
  induction x with
  | nil => exact h
  | cons a xs ih =>
    simp only [List.cons_append, hasDoubleColon, Bool.or_eq_false_iff] at h
    exact ih h.2

theorem hasDoubleColon_stripColon (p : List Char) (h : hasDoubleColon p = false) :
    hasDoubleColon (stripColon p) = false := by
  unfold stripColon
  split
  · cases p with
    | nil => exact h
    | cons a xs => exact hasDoubleColon_append_right [a] xs h
  · exact h

theorem stripColon_idem (p : List Char) (h : hasDoubleColon p = false) :
    stripColon (stripColon p) = stripColon p := by
  cases p with
  | nil => rfl
  | cons a xs =>
    by_cases ha : a = ':'
    · subst ha
      have h1 : stripColon (':' :: xs) = xs := rfl
      simp only [hasDoubleColon, Bool.or_eq_false_iff] at h
      have hx : xs.head? ≠ some ':' := by
        intro hx
        rw [hx] at h
        exact absurd h.1 (by decide)
      rw [h1]
      simp [stripColon, hx]
    · have h1 : stripColon (a :: xs) = a :: xs := by simp [stripColon, ha]
      rw [h1, h1]

theorem pathText_stripColon_eq (l : List Char) :
    pathText (stripColon l) = stripColon (pathText l) := by
  cases l with
  | nil => rfl
  | cons a xs =>
    by_cases ha : a = ':'
    · subst ha
      have h1 : stripColon (':' :: xs) = xs := rfl
      have h2 : pathText (':' :: xs) = ':' :: pathText xs := by simp [pathText]
      rw [h1, h2]; rfl
    · have h1 : stripColon (a :: xs) = a :: xs := by simp [stripColon, ha]
      rw [h1]
      by_cases hs : a = ' '
      · subst hs
        have : pathText (' ' :: xs) = [] := by simp [pathText]
        rw [this]; rfl
      · have : pathText (a :: xs) = a :: pathText xs := by simp [pathText, hs]
        rw [this]
        simp [stripColon, ha]

/-- The leaf of a result lies in the subtree of the node that was asked. -/
theorem match_inSubtree (n : Node H) (input : List Char) (r : MatchResult H)
    (h : (n.match input).1 = some r) : InSubtree n r.leafNode := by
  revert input r
  refine node_induction
    (P := fun n => ∀ input r, (n.match input).1 = some r → InSubtree n r.leafNode) ?_ n
  intro kw ks opt ch hd ih input r h
  have hl : ∀ i, (matchList ch i).1 = some r →
      InSubtree (Node.raw kw ks opt ch hd) r.leafNode := by
    intro i hr
    obtain ⟨c, hc, hcr⟩ := matchList_some ch i r hr
    exact InSubtree.child _ c _ hc (ih c hc i r hcr)
  rw [match_eq] at h
  split at h
  · simp at h
  · split at h
    · split at h
      · simp only [Option.some.injEq] at h
        subst h
        exact InSubtree.self _
      · split at h
        · exact hl _ h
        · simp only [Option.some.injEq] at h
          subst h
          exact InSubtree.self _
    · split at h
      · exact hl _ h
      · simp at h

/-- On an input whose path has no two adjacent colons, the units of the path name, in
order, nodes on a tree path that ends in the leaf of the result, and the nodes of that path
that are passed over are optional. -/
theorem match_follows (n : Node H) (input : List Char) (r : MatchResult H)
    (hdc : hasDoubleColon (pathText input) = false)
    (h : (n.match input).1 = some r) : Follows n (pathUnits input) r.leafNode := by
  revert input r
  refine node_induction
    (P := fun n => ∀ input r, hasDoubleColon (pathText input) = false →
      (n.match input).1 = some r → Follows n (pathUnits input) r.leafNode) ?_ n
  intro kw ks opt ch hd ih input r hdc h
  have hps : pathText (stripColon input) = stripColon (pathText input) :=
    pathText_stripColon_eq input
  have hds : hasDoubleColon (pathText (stripColon input)) = false := by
    rw [hps]; exact hasDoubleColon_stripColon _ hdc
  have hss : stripColon (pathText (stripColon input)) = pathText (stripColon input) := by
    rw [hps]; exact stripColon_idem _ hdc
  have hunits : pathUnits input = (pathText (stripColon input)).splitOn ':' := by
    unfold pathUnits; rw [hps]
  have hpu := pathText_unit (stripColon input)
  have hnc := firstUnit_no_colon (stripColon input)
  rw [match_eq] at h
  split at h
  · simp at h
  · split at h
    · rename_i hacc
      have hn := (names_iff_accepts (Node.raw kw ks opt ch hd) _).2 hacc
      split at h
      · rename_i hA
        simp only [Option.some.injEq] at h
        subst h
        rw [hA] at hpu
        have hp : pathText ([] : List Char) = [] := rfl
        rw [hp, List.append_nil] at hpu
        rw [hunits, hpu, splitOn_colon_of_not_mem _ hnc]
        exact Follows.leaf _ _ hn
      · rename_i c rest hA
        split at h
        · rename_i hc
          subst hc
          obtain ⟨d, hdm, hdr⟩ := matchList_some ch _ r h
          have hp : pathText (':' :: rest) = ':' :: pathText rest := by simp [pathText]
          rw [hA, hp] at hpu
          have hd2 : hasDoubleColon (pathText (':' :: rest)) = false := by
            rw [hp]
            rw [hpu] at hds
            exact hasDoubleColon_append_right _ _ hds
          have hf := ih d hdm _ r hd2 hdr
          have hu2 : pathUnits (':' :: rest) = (pathText rest).splitOn ':' := by
            unfold pathUnits; rw [hp]; rfl
          rw [hu2] at hf
          rw [hunits, hpu, splitOn_colon_append _ _ hnc]
          exact Follows.descend _ d _ _ _ hn hdm hf
        · rename_i hc
          have hsp := afterUnit_head_space _ c rest hA hc
          subst hsp
          simp only [Option.some.injEq] at h
          subst h
          have hp : pathText (' ' :: rest) = [] := by simp [pathText]
          rw [hA, hp, List.append_nil] at hpu
          rw [hunits, hpu, splitOn_colon_of_not_mem _ hnc]
          exact Follows.leaf _ _ hn
    · split at h
      · rename_i hopt
        obtain ⟨d, hdm, hdr⟩ := matchList_some _ _ r h
        have hf := ih d hdm _ r hds hdr
        have hu2 : pathUnits (stripColon input) = pathUnits input := by
          rw [hunits]; unfold pathUnits; rw [hss]
        rw [hu2] at hf
        exact Follows.skip _ d _ _ hopt hdm hf
      · simp at h

/-- A list of at least two units starts at a node that is named by the first unit or is
optional and passed over. -/
theorem follows_two_units (n L : Node H) (u v : List Char) (us : List (List Char))
    (h : Follows n (u :: v :: us) L) :
    names n u ∨ (n.optional = true ∧ ∃ c ∈ n.children, Follows c (u :: v :: us) L) := by
  cases h with
  | descend _ c _ _ _ hn _ _ => exact Or.inl hn
  | skip _ c _ _ hopt hc hf => exact Or.inr ⟨hopt, c, hc, hf⟩

/-! ## The claims, continued -/

/-- C11: when `match` returns "no match", no handler has been invoked during the call. -/
theorem no_match_invokes_nothing {H : Type} (n : Node H) (input : List Char)
    (h : (n.match input).1 = none) : (n.match input).2 = [] := by
  rw [match_calls n input, h]
  rfl

/-- C11 on the tree of `testParsing`, which has no `FREQuency` node: `match("SENS:FREQ")`
returns "no match" and invokes no handler. -/
theorem no_match_invokes_nothing_witness :
    (testParsingTree.match "SENS:FREQ".toList).1 = none ∧
      (testParsingTree.match "SENS:FREQ".toList).2 = [] :=
  ⟨rfl, no_match_invokes_nothing testParsingTree "SENS:FREQ".toList rfl⟩

/-- C12: `matchChildren` returns the result of `match` of the first child, in declaration
order, whose result is not empty; it returns "no match" exactly when the result of every
child is empty; so a child that returns a result and has only failing children in front of
it gives the leaf, whatever the children behind it return. -/
theorem matchChildren_first_result {H : Type} (n : Node H) (input : List Char) :
    (n.matchChildren input).1 = n.children.findSome? (fun c => (c.match input).1) ∧
      ((n.matchChildren input).1 = none ↔ ∀ c ∈ n.children, (c.match input).1 = none) ∧
      (∀ (pre post : List (Node H)) (c : Node H) (r : MatchResult H),
        n.children = pre ++ c :: post → (∀ d ∈ pre, (d.match input).1 = none) →
        (c.match input).1 = some r → (n.matchChildren input).1 = some r) := by
  refine ⟨matchList_findSome _ _, ?_, ?_⟩
  · unfold Node.matchChildren
    rw [matchList_findSome, List.findSome?_eq_none_iff]
  · intro pre post c r hch hpre hc
    unfold Node.matchChildren
    rw [hch, matchList_first pre post c input r hpre hc, hc]

/-- C12 on the tree `SYSTem -> [SENSe, SENSor]`: both children match `"SENS"`, and the
first declared one, `SENSe`, is the leaf. -/
theorem matchChildren_first_result_witness :
    (senseNode.match "SENS".toList).1 = some ⟨senseNode, false, []⟩ ∧
      (sensorNode.match "SENS".toList).1 = some ⟨sensorNode, false, []⟩ ∧
      (siblingTree.matchChildren "SENS".toList).1 = some ⟨senseNode, false, []⟩ :=
  ⟨rfl, rfl,
    (matchChildren_first_result siblingTree "SENS".toList).2.2 [] [sensorNode] senseNode
      ⟨senseNode, false, []⟩ rfl (fun _ hd => absurd hd (List.not_mem_nil _)) rfl⟩

/-- C13, as stated, fails: in the tree `SYSTem -> [SENSe -> [CURrent], SENSor -> [VOLTage]]`
the child `SENSe` accepts the first unit of `":SENS:VOLT"` and its descent ends in "no match",
yet `matchChildren` goes on to the later sibling `SENSor` and returns the leaf `VOLTage`. -/
theorem sibling_tried_after_failed_descent :
    senseNode ∈ siblingTree.children ∧
      names senseNode (firstUnit (stripColon ":SENS:VOLT".toList)) ∧
      senseNode.match ":SENS:VOLT".toList = (none, []) ∧
      siblingTree.matchChildren ":SENS:VOLT".toList
        = (some ⟨voltageNode, false, []⟩, [⟨Handler.handleVoltage, false, []⟩]) :=
  ⟨List.mem_cons_self _ _, by decide, rfl, rfl⟩

/-- C13, amended: resolution stops at the first sibling that returns a result: when a child
returns a result and every child declared before it returns "no match", the outcome of
`matchChildren` (result and handler invocations) is the outcome of that child and no later
sibling is tried, so the outcome is the same with the later siblings removed. -/
theorem first_result_is_final {H : Type} (n : Node H) (input : List Char)
    (pre post : List (Node H)) (c : Node H) (r : MatchResult H)
    (hch : n.children = pre ++ c :: post)
    (hpre : ∀ d ∈ pre, (d.match input).1 = none)
    (hc : (c.match input).1 = some r) :
    n.matchChildren input = c.match input ∧
      matchList (pre ++ [c]) input = n.matchChildren input := by
  unfold Node.matchChildren
  rw [hch, matchList_first pre post c input r hpre hc,
    matchList_first pre [] c input r hpre hc]
  exact ⟨rfl, rfl⟩

/-- C13, amended, on the tree `SYSTem -> [SENSe, SENSor]`: on `":SENS:VOLT"` the child
`SENSe` returns "no match", `SENSor` returns the leaf `VOLTage`, and that is the outcome. -/
theorem first_result_is_final_witness :
    siblingTree.matchChildren ":SENS:VOLT".toList = sensorNode.match ":SENS:VOLT".toList ∧
      (sensorNode.match ":SENS:VOLT".toList).1 = some ⟨voltageNode, false, []⟩ :=
  ⟨(first_result_is_final siblingTree ":SENS:VOLT".toList [senseNode] [] sensorNode
      ⟨voltageNode, false, []⟩ rfl
      (fun d hd => by rw [List.mem_singleton.1 hd]; rfl) rfl).1,
    rfl⟩

/-- C14: the constructor rejects a keyword exactly when it is empty or its first character
is not an uppercase letter; for every other keyword it succeeds and the node stores the
keyword, the optional flag, the children in the given order and the handler. -/
theorem constructor_rejects_iff {H : Type} (keyword : List Char) (optional : Bool)
    (children : List (Node H)) (handler : Option H) :
    (Node.Node keyword optional children handler = none ↔
        (keyword = [] ∨ ∃ c rest, keyword = c :: rest ∧ isupper c = false)) ∧
      (¬ (keyword = [] ∨ ∃ c rest, keyword = c :: rest ∧ isupper c = false) →
        ∃ n, Node.Node keyword optional children handler = some n ∧
          n.keyword = keyword ∧ n.optional = optional ∧ n.children = children ∧
          n.handler = handler) := by
  cases keyword with
  | nil => simp [Node.Node]
  | cons c rest =>
    by_cases hc : isupper c = true
    · simp [Node.Node, hc, Node.keyword, Node.optional, Node.children, Node.handler]
    · simp [Node.Node, hc]

/-- C14 on the keywords `VOLTage`, which is accepted, and `voltage` and the empty keyword,
which are rejected. -/
theorem constructor_rejects_iff_witness :
    (∃ n, Node.Node "VOLTage".toList false [] (some Handler.handleVoltage) = some n ∧
        n.keyword = "VOLTage".toList ∧ n.optional = false ∧ n.children = [] ∧
        n.handler = some Handler.handleVoltage) ∧
      Node.Node "voltage".toList false [] (some Handler.handleVoltage) = none ∧
      Node.Node [] false [] (some Handler.handleVoltage) = none :=
  ⟨(constructor_rejects_iff "VOLTage".toList false [] (some Handler.handleVoltage)).2
      (fun h => by
        rcases h with h | ⟨c, rest, hk, hu⟩
        · exact absurd h (by decide)
        · have hV : c = 'V' := by
            have := congrArg List.head? hk
            simpa using this.symm
          rw [hV] at hu
          exact absurd hu (by decide)),
    (constructor_rejects_iff "voltage".toList false [] (some Handler.handleVoltage)).1.2
      (Or.inr ⟨'v', "oltage".toList, rfl, rfl⟩),
    (constructor_rejects_iff [] false [] (some Handler.handleVoltage)).1.2 (Or.inl rfl)⟩

/-- C16: a single leading `':'` is ignored: for every node and every non-empty input `s`
that does not begin with `':'`, `match(":" ++ s)` returns the same result and makes the same
handler invocations as `match(s)`. -/
theorem leading_colon_ignored {H : Type} (n : Node H) (s : List Char) (hs : s ≠ [])
    (hc : s.head? ≠ some ':') : n.match (':' :: s) = n.match s :=
  match_colon_cons n s hs hc

/-- C16 on the tree of `testParsing`: `":SENS:VOLT 5"` resolves like `"SENS:VOLT 5"`. -/
theorem leading_colon_ignored_witness :
    testParsingTree.match ":SENS:VOLT 5".toList = testParsingTree.match "SENS:VOLT 5".toList ∧
      testParsingTree.match "SENS:VOLT 5".toList
        = (some ⟨voltageNode, false, "5".toList⟩, [⟨Handler.handleVoltage, false, "5".toList⟩]) :=
  ⟨leading_colon_ignored testParsingTree "SENS:VOLT 5".toList (by decide) (by decide), rfl⟩

/-- C15: matching is case-insensitive on whole paths: on two inputs that differ only in the
letter case of their characters, `match` either fails on both or succeeds on both with the
same leaf and the same query flag, the parameters being the text after the first space of the
respective input. -/
theorem match_case_insensitive {H : Type} (n : Node H) (a b : List Char)
    (h : sameUpToCase a b) :
    ((n.match a).1 = none ∧ (n.match b).1 = none) ∨
      ∃ ra rb, (n.match a).1 = some ra ∧ (n.match b).1 = some rb ∧
        ra.leafNode = rb.leafNode ∧ ra.isQuery = rb.isQuery ∧
        ra.parameters = afterFirstSpace a ∧ rb.parameters = afterFirstSpace b := by
  have hs := match_sameLeaf n a b h
  rcases hma : (n.match a).1 with _ | ra <;> rcases hmb : (n.match b).1 with _ | rb <;>
    rw [hma, hmb] at hs
  · exact Or.inl ⟨rfl, rfl⟩
  · exact absurd hs (by simp [sameLeaf])
  · exact absurd hs (by simp [sameLeaf])
  · exact Or.inr ⟨ra, rb, rfl, rfl, hs.1, hs.2, match_parameters n a ra hma,
      match_parameters n b rb hmb⟩

/-- C15 on the node keyed `SENSor` of the test tree: `"SENS"`, `"sens"` and `"Sens"` all give
the same result, that node with query flag false and empty parameters. -/
theorem match_case_insensitive_witness :
    (testTree.match "SENS".toList).1 = some ⟨testTree, false, []⟩ ∧
      (testTree.match "sens".toList).1 = some ⟨testTree, false, []⟩ ∧
      (testTree.match "Sens".toList).1 = some ⟨testTree, false, []⟩ ∧
      (((testTree.match "SENS:volt 5V".toList).1 = none ∧
          (testTree.match "sens:VOLT 5v".toList).1 = none) ∨
        ∃ ra rb, (testTree.match "SENS:volt 5V".toList).1 = some ra ∧
          (testTree.match "sens:VOLT 5v".toList).1 = some rb ∧
          ra.leafNode = rb.leafNode ∧ ra.isQuery = rb.isQuery ∧
          ra.parameters = afterFirstSpace "SENS:volt 5V".toList ∧
          rb.parameters = afterFirstSpace "sens:VOLT 5v".toList) :=
  ⟨rfl, rfl, rfl,
    match_case_insensitive testTree "SENS:volt 5V".toList "sens:VOLT 5v".toList (by decide)⟩

/-- C17, on the code: `match` tests an empty comparison unit for a trailing `'?'` on the
inputs `":"`, `"SENS:"` and `" 5"`, that is, it reads the character in front of the unit;
each of these calls returns "no match". -/
theorem empty_unit_is_tested :
    unitsTested testTree ":".toList = [[]] ∧
      unitsTested testTree "SENS:".toList = ["SENS".toList, []] ∧
      unitsTested testTree " 5".toList = [[]] ∧
      (testTree.match ":".toList).1 = none ∧
      (testTree.match "SENS:".toList).1 = none ∧
      (testTree.match " 5".toList).1 = none :=
  ⟨by decide, by decide, by decide, rfl, rfl, rfl⟩

/-- C18, as stated, fails: on the tree `POWer(optional) -> [VOLTage]` the input `"::VOLT"`
resolves to the leaf `VOLTage`, while the units of its path are the empty unit and `VOLT`,
and the empty unit names no node on the path from `POWer` to `VOLTage`. -/
theorem empty_unit_names_no_node :
    (powerTree.match "::VOLT".toList).1 = some ⟨voltageNode, false, []⟩ ∧
      pathUnits "::VOLT".toList = [[], "VOLT".toList] ∧
      ¬ Follows powerTree (pathUnits "::VOLT".toList) voltageNode := by
  refine ⟨rfl, by decide, ?_⟩
  have hu : pathUnits "::VOLT".toList = [[], "VOLT".toList] := by decide
  rw [hu]
  intro h
  rcases follows_two_units _ _ _ _ _ h with hn | ⟨_, c, hc, hf⟩
  · exact absurd hn (by decide)
  · have hcv : c = voltageNode := List.mem_singleton.1 hc
    rw [hcv] at hf
    rcases follows_two_units _ _ _ _ _ hf with hn | ⟨hopt, _⟩
    · exact absurd hn (by decide)
    · exact absurd hopt (by decide)

/-- C18, amended: when `root.match(input)` returns a result with leaf `L`, then `L` lies in
the subtree of the root; and when the path of the input (the text before the first space)
has no two adjacent colons, its colon-separated units (one leading `':'` dropped, one trailing
`'?'` dropped from each unit) name, in order and up to letter case by short or full form, a
subsequence of the nodes on the tree path from the root to `L` whose last element is `L`,
and every node on that path not named by a unit is optional. -/
theorem result_follows_path {H : Type} (root : Node H) (input : List Char)
    (r : MatchResult H) (h : (root.match input).1 = some r) :
    InSubtree root r.leafNode ∧
      (hasDoubleColon (pathText input) = false →
        Follows root (pathUnits input) r.leafNode) :=
  ⟨match_inSubtree root input r h, fun hdc => match_follows root input r hdc h⟩

/-- C18, amended, on the test tree: on `"sEnS:voltage 100V"` the units `sEnS` and `voltage`
name `SENSor` and `VOLTage`, and the node `POWer` between them is passed over. -/
theorem result_follows_path_witness :
    (testTree.match "sEnS:voltage 100V".toList).1 = some ⟨voltageNode, false, "100V".toList⟩ ∧
      pathUnits "sEnS:voltage 100V".toList = ["sEnS".toList, "voltage".toList] ∧
      InSubtree testTree voltageNode ∧
      Follows testTree (pathUnits "sEnS:voltage 100V".toList) voltageNode :=
  ⟨rfl, by decide,
    (result_follows_path testTree "sEnS:voltage 100V".toList
      ⟨voltageNode, false, "100V".toList⟩ rfl).1,
    (result_follows_path testTree "sEnS:voltage 100V".toList
      ⟨voltageNode, false, "100V".toList⟩ rfl).2 (by decide)⟩

/-- C19: a `'?'` on a non-final path unit has no effect: for every node, every non-empty unit
`u` without `':'` and space that does not end in `'?'`, and every rest `r` that begins with
`':'`, `match(u ++ "?" ++ r)` returns the same result and makes the same handler invocations
as `match(u ++ r)`. -/
theorem inner_question_ignored {H : Type} (n : Node H) (u r : List Char) (hne : u ≠ [])
    (hcolon : ':' ∉ u) (hspace : ' ' ∉ u) (hq : u.getLast? ≠ some '?')
    (hr : r.head? = some ':') : n.match (u ++ '?' :: r) = n.match (u ++ r) := by
  cases r with
  | nil => simp at hr
  | cons c t =>
    simp only [List.head?_cons, Option.some.injEq] at hr
    subst hr
    apply match_inner_question n u t hne _ hq
    intro x hx
    have h1 : x ≠ ':' := fun h => hcolon (h ▸ hx)
    have h2 : x ≠ ' ' := fun h => hspace (h ▸ hx)
    simp [isSep, h1, h2]

/-- C19 on the tree of `testParsing`: `"SENS?:VOLT"` resolves like `"SENS:VOLT"`, to the leaf
`VOLTage` with query flag false. -/
theorem inner_question_ignored_witness :
    testParsingTree.match "SENS?:VOLT".toList = testParsingTree.match "SENS:VOLT".toList ∧
      testParsingTree.match "SENS:VOLT".toList
        = (some ⟨voltageNode, false, []⟩, [⟨Handler.handleVoltage, false, []⟩]) :=
  ⟨inner_question_ignored testParsingTree "SENS".toList ":VOLT".toList (by decide) (by decide)
      (by decide) (by decide) rfl,
    rfl⟩

/-- C20: `parse` terminates on every input: an iteration of its loop on a non-empty input
either drops a leading `';'` or hands a non-empty segment to `match`, and leaves a strictly
shorter input, so the loop is over after at most as many iterations as the input has
characters; `match` itself is defined by recursion on the tree. -/
theorem parse_terminates {H : Type} (n : Node H) (input : List Char) :
    (input ≠ [] → (parseRest input).length < input.length ∧
        (input.head? = some ';' ∨ parseSegment input ≠ [])) ∧
      (∀ fuel, n.parseLoop (fuel + 1) input =
        if input.length > 0 then
          (n.parseLoop fuel (parseRest input)).map
            (fun rest => (n.match (parseSegment input)).2 ++ rest)
        else some []) ∧
      (∀ fuel, input.length ≤ fuel → (n.parseLoop fuel input).isSome = true) ∧
      (n.parse input).isSome = true := by
  refine ⟨fun h => ⟨parseRest_length input h, ?_⟩, fun fuel => parseLoop_succ n fuel input,
    fun fuel hf => ?_, ?_⟩
  · by_cases hs : input.head? = some ';'
    · exact Or.inl hs
    · exact Or.inr (parseSegment_ne_nil input h hs)
  · rw [parseLoop_eq n fuel input hf]; rfl
  · unfold Node.parse
    rw [parseLoop_eq n _ input (Nat.le_refl _)]; rfl

/-- C20 on the line of `testParsing`: the first iteration hands `"sEnS:voltage 100V"` to
`match` and leaves `";sEnS:current 0.2ma"`, which is shorter, and `parse` returns. -/
theorem parse_terminates_witness :
    parseSegment "sEnS:voltage 100V;sEnS:current 0.2ma".toList = "sEnS:voltage 100V".toList ∧
      parseRest "sEnS:voltage 100V;sEnS:current 0.2ma".toList = ";sEnS:current 0.2ma".toList ∧
      (parseRest "sEnS:voltage 100V;sEnS:current 0.2ma".toList).length
        < "sEnS:voltage 100V;sEnS:current 0.2ma".toList.length ∧
      (testParsingTree.parse "sEnS:voltage 100V;sEnS:current 0.2ma".toList).isSome = true :=
  ⟨by decide, by decide,
    ((parse_terminates testParsingTree "sEnS:voltage 100V;sEnS:current 0.2ma".toList).1
      (by decide)).1,
    (parse_terminates testParsingTree "sEnS:voltage 100V;sEnS:current 0.2ma".toList).2.2.2⟩

end SCPI
